import Mathlib

/-!
# doclist: directory listing to HTML fragment

A shallow embedding of `main.go` (package `main` of `doclist`) together with the
parts of the Go standard library it calls, and theorems about the name cleaner,
the tree walker, the HTML renderer and the entry point.

## Modelling conventions

* A Go `string` is modelled as `Str = List Char`, the sequence of its Unicode code
  points.  Every library routine used by the program (`strings.HasPrefix`,
  `strings.ReplaceAll` with one-byte ASCII patterns, `strings.TrimSuffix`,
  `strings.TrimSpace`, `filepath.Ext`, `html.EscapeString`) treats the ASCII bytes
  it looks for identically at the byte and at the code point level, because an
  ASCII byte never occurs inside a multi-byte UTF-8 sequence; byte-wise string
  comparison coincides with code-point-wise comparison for the same reason.
* Paths follow the Unix flavour of `path/filepath`: the separator is `/`.
* The file system is the tree `Node` found at the root path, each directory with
  its entries in the order the operating system enumerates them; `os.ReadDir`
  sorts a listing by file name before `filepath.WalkDir` walks it.
* A path below the root, and a directory key built from it, is kept as the list
  of its elements; `filepath.Rel`, `Dir`, `Join` and `Base` act on such lists.
* `walkDirectory` returns the Go pair `([]dirEntry, error)`.
* The empty `if i < len(entries)-1 { }` of `renderHTML` has no effect and is left
  out.
* `main` takes `os.Args` and the answers of the operating system (`OS`) as
  arguments and returns a `Run`: the exit status, both output streams and the
  calls made to the operating system, in order.
-/

namespace Doclist

/-- A Go string, as the list of its code points. -/
abbrev Str := List Char

/-! ## Standard library: package `strings` -/

/-- `strings.HasPrefix(s, prefix)`. -/
def HasPrefix (s pre : Str) : Bool := pre.isPrefixOf s

/-- `strings.HasSuffix(s, suffix)`. -/
def HasSuffix (s suf : Str) : Bool := suf.isSuffixOf s

/-- `strings.TrimSuffix(s, suffix)`: `s` without the trailing `suffix`; `s` itself
when it does not end in `suffix`. -/
def TrimSuffix (s suf : Str) : Str :=
  if HasSuffix s suf then s.take (s.length - suf.length) else s

/-- Worker of `ReplaceAll` for a non-empty pattern: scans left to right; `skip`
counts the characters of the current match that are still to be dropped. -/
def replaceFrom (old new : Str) : Nat → Str → Str
  | _, [] => []
  | skip + 1, _ :: s => replaceFrom old new skip s
  | 0, c :: s =>
    if old.isPrefixOf (c :: s) then new ++ replaceFrom old new (old.length - 1) s
    else c :: replaceFrom old new 0 s

/-- `strings.ReplaceAll(s, old, new)`: every non-overlapping instance of `old`
replaced by `new`, matching from the left.  With an empty `old` the replacement is
inserted at the start and after every code point. -/
def ReplaceAll (s old new : Str) : Str :=
  if old = [] then new ++ s.flatMap (fun c => c :: new) else replaceFrom old new 0 s

/-- `unicode.IsSpace`: the code points with the Unicode White_Space property. -/
def IsSpace (c : Char) : Bool :=
  let n := c.toNat
  n == 0x09 || n == 0x0A || n == 0x0B || n == 0x0C || n == 0x0D || n == 0x20 ||
  n == 0x85 || n == 0xA0 || n == 0x1680 || (0x2000 ≤ n && n ≤ 0x200A) ||
  n == 0x2028 || n == 0x2029 || n == 0x202F || n == 0x205F || n == 0x3000

/-- `strings.TrimSpace(s)`: `s` without its leading and trailing white space. -/
def TrimSpace (s : Str) : Str :=
  ((s.dropWhile IsSpace).reverse.dropWhile IsSpace).reverse

/-! ## Standard library: package `path/filepath` -/

/-- Loop of `filepath.Ext`, running from the end of the path towards its start:
`rev` holds the characters not yet inspected, last one first, and `acc` those
already passed. -/
def extFrom : Str → Str → Str
  | [], _ => []
  | c :: rev, acc =>
    if c = '/' then []
    else if c = '.' then '.' :: acc
    else extFrom rev (c :: acc)

/-- `filepath.Ext(path)`: the suffix beginning at the final dot in the final
slash-separated element of `path`; empty if there is no such dot. -/
def Ext (path : Str) : Str := extFrom path.reverse []

/-! ## Standard library: package `html` -/

/-- Replacement table of `html.EscapeString` (`htmlEscaper`). -/
def escapeChar (c : Char) : Str :=
  if c = '&' then "&amp;".toList
  else if c = '\'' then "&#39;".toList
  else if c = '<' then "&lt;".toList
  else if c = '>' then "&gt;".toList
  else if c = '"' then "&#34;".toList
  else [c]

/-- `html.EscapeString(s)`: a single pass over `s` that replaces each of the five
special characters by its entity and copies every other character. -/
def EscapeString (s : Str) : Str := s.flatMap escapeChar

/-! ## Name cleaner (`main.go`, lines 155-188) -/

/-- `isHidden` checks if a file/directory name starts with a dot. -/
def isHidden (name : Str) : Bool := HasPrefix name ".".toList

/-- `cleanName` cleans a filename: strips extension, replaces `_` and `-` with
spaces, trims white space. -/
def cleanName (name : Str) : Str :=
  let ext := Ext name
  let name := if ext ≠ [] then TrimSuffix name ext else name
  let name := ReplaceAll name "_".toList " ".toList
  let name := ReplaceAll name "-".toList " ".toList
  TrimSpace name

/-- `cleanDirName` cleans a directory name: replaces `_` and `-` with spaces,
trims white space. -/
def cleanDirName (name : Str) : Str :=
  let name := ReplaceAll name "_".toList " ".toList
  let name := ReplaceAll name "-".toList " ".toList
  TrimSpace name

/-! ## The file system seen by the walker

`walkDirectory` reads the file system through `filepath.WalkDir` only: one
`os.Lstat` of the root and one `os.ReadDir` per directory entered.  The state of
the file system during one walk is therefore a finite tree. -/

/-- An error reported by the operating system for a file system access. -/
inductive IOError where
  | EACCES
  | ENOENT
  | EIO
  deriving DecidableEq, Repr

/-- A file system object as `os.Lstat` and `os.ReadDir` report it.  `file` stands
for every entry whose `IsDir()` is false.  For a directory, `entries` lists its
children in the order in which the operating system enumerates them (names other
than `.` and `..`), and `readErr` is the error, if any, that reading the directory
fails with (`entries` are then the ones read before the failure). -/
inductive Node where
  | file (name : Str)
  | dir (name : Str) (readErr : Option IOError) (entries : List Node)

/-- Result of `os.Lstat(root)`: an error, or the object the root path names. -/
abbrev Lstat := Except IOError Node

/-- `Name()` of an entry: its base name. -/
def Node.Name : Node → Str
  | .file n => n
  | .dir n _ _ => n

/-- `IsDir()` of an entry. -/
def Node.IsDir : Node → Bool
  | .file _ => false
  | .dir _ _ _ => true

/-- Go string comparison `a <= b` (byte-wise lexicographic, a proper prefix is
smaller), as used by `os.ReadDir` to sort entries by file name. -/
def strLE : Str → Str → Bool
  | [], _ => true
  | _ :: _, [] => false
  | a :: s, b :: t =>
    if a.toNat < b.toNat then true
    else if b.toNat < a.toNat then false
    else strLE s t

/-- Order of two directory entries by file name. -/
def byName (a b : Node) : Prop := strLE a.Name b.Name = true

instance : DecidableRel byName :=
  fun a b => inferInstanceAs (Decidable (strLE a.Name b.Name = true))

mutual
/-- The tree as `os.ReadDir` presents it: "ReadDir reads the named directory,
returning all its directory entries sorted by filename".  The listing of every
directory is sorted here once, for the whole tree; the walk then recurses over
these listings. -/
def ReadDir : Node → Node
  | .file n => .file n
  | .dir n e es => .dir n e (List.insertionSort byName (ReadDirs es))
/-- `ReadDir` on every member of a list. -/
def ReadDirs : List Node → List Node
  | [] => []
  | x :: xs => ReadDir x :: ReadDirs xs
end

/-! ## Standard library: `filepath.WalkDir` -/

/-- Values of Go type `error` that occur in a walk, `nil` excepted. -/
inductive WalkErr where
  | SkipDir
  | SkipAll
  | io (e : IOError)
  deriving DecidableEq, Repr

/-- Go `error`: `none` is `nil`. -/
abbrev error := Option WalkErr

/-- What the callback sees of an `fs.DirEntry`. -/
structure DirEntry where
  Name : Str
  IsDir : Bool
  deriving DecidableEq, Repr

/-- A path at or below the walk's root, as the list of the path elements that
follow the root path (empty for the root itself). -/
abbrev Path := List Str

/-- Type of the callback (`fs.WalkDirFunc`) with the state it closes over made
explicit: `fn(path, d, err)` run in state `st`. -/
abbrev WalkDirFunc (σ : Type) := σ → Path → Option DirEntry → error → σ × error

mutual
/-- `filepath.walkDir(path, d, walkDirFn)`: call the function on `d`; for a
directory, read it (reporting a read error through a second call), then walk
the entries in turn. -/
def walkDir {σ : Type} (fn : WalkDirFunc σ) (path : Path) : Node → σ → σ × error
  | .file name, st => fn st path (some ⟨name, false⟩) none
  | .dir name readErr dirs, st =>
    match fn st path (some ⟨name, true⟩) none with
    | (st, some err) => (st, if err = .SkipDir then none else some err)
    | (st, none) =>
      match readErr with
      | some e =>
        match fn st path (some ⟨name, true⟩) (some (.io e)) with
        | (st, some err) => (st, if err = .SkipDir then none else some err)
        | (st, none) => walkDirs fn path dirs st
      | none => walkDirs fn path dirs st
/-- The loop `for _, d1 := range dirs` of `walkDir`: `SkipDir` from an entry
leaves the loop, any other error is returned. -/
def walkDirs {σ : Type} (fn : WalkDirFunc σ) (path : Path) : List Node → σ → σ × error
  | [], st => (st, none)
  | d1 :: dirs, st =>
    match walkDir fn (path ++ [d1.Name]) d1 st with
    | (st, some err) => (st, if err = .SkipDir then none else some err)
    | (st, none) => walkDirs fn path dirs st
end

/-- `filepath.WalkDir(root, fn)`: "The files are walked in lexical order".  A
failing `Lstat` of the root is reported to the function with a nil entry;
`SkipDir` and `SkipAll` coming out of the walk are turned into `nil`. -/
def WalkDir {σ : Type} (root : Lstat) (fn : WalkDirFunc σ) (st : σ) : σ × error :=
  let r := match root with
    | .error e => fn st [] none (some (.io e))
    | .ok d => walkDir fn [] (ReadDir d) st
  (r.1, if r.2 = some .SkipDir ∨ r.2 = some .SkipAll then none else r.2)

/-! ## Tree walker (`main.go`, lines 12-16 and 67-153) -/

/-- `dirEntry` holds files for a directory. -/
structure dirEntry where
  /-- cleaned display name -/
  name : Str
  /-- cleaned file names -/
  files : List Str
  deriving DecidableEq, Repr

/-- A directory key (`relPath`, `parentPath`): a cleaned slash-separated path,
kept as the list of its elements. -/
abbrev Key := List Str

/-- `filepath.Rel(root, path)` for a path at or below the root: the elements
after the root; the empty list stands for the result ".". -/
def Rel (path : Path) : List Str := path

/-- `filepath.Rel(root, filepath.Dir(path))`: the parent's elements; for the
root path itself the parent lies outside the root and the result is "..". -/
def RelDir (path : Path) : List Str :=
  if path = [] then ["..".toList] else path.dropLast

/-- `filepath.Join(rootName, rel)`: the cleaned path `rootName/rel`, in which a
".." element cancels the `rootName` before it, leaving ".". -/
def Join (rootName : Str) (rel : List Str) : Key :=
  if rel = ["..".toList] then [".".toList] else rootName :: rel

/-- `filepath.Base(dirPath)` of a key: its last element. -/
def Base (key : Key) : Str := key.getLastD ".".toList

/-- The three variables the callback closes over. -/
structure walkState where
  /-- Map to collect files per directory (a missing key reads as the nil slice) -/
  dirFiles : Key → List Str
  /-- Slice to track directory order -/
  dirOrder : List Key
  /-- Set to track which directories we have seen (a missing key reads as false) -/
  dirSeen : Key → Bool

/-- The state before the walk: two empty maps and an empty slice. -/
def walkState.init : walkState := ⟨fun _ => [], [], fun _ => false⟩

/-- The block `if !dirSeen[key] { ... }` (lines 103-107 and 118-122). -/
def walkState.track (st : walkState) (key : Key) : walkState :=
  if !st.dirSeen key then
    { dirSeen := fun k => if k = key then true else st.dirSeen k
      dirOrder := st.dirOrder ++ [key]
      dirFiles := fun k => if k = key then [] else st.dirFiles k }
  else st

/-- The statement `dirFiles[key] = append(dirFiles[key], file)` (line 125). -/
def walkState.addFile (st : walkState) (key : Key) (file : Str) : walkState :=
  { st with dirFiles := fun k => if k = key then st.dirFiles key ++ [file] else st.dirFiles k }

/-- The function literal passed to `filepath.WalkDir` (lines 79-129).  A nil
entry only ever comes with an error, which is returned before the entry is used. -/
def walkFn (rootName : Str) : WalkDirFunc walkState := fun st path d err =>
  match err with
  | some err => (st, some err)
  | none =>
    match d with
    | none => (st, none)
    | some d =>
      let name := d.Name
      -- Skip hidden files and directories
      if isHidden name then
        if d.IsDir then (st, some .SkipDir) else (st, none)
      else if d.IsDir then
        let relPath := Rel path
        let relPath := if relPath = [] then [rootName] else Join rootName relPath
        (st.track relPath, none)
      else
        -- It is a file - add to parent directory
        let parentPath := RelDir path
        let parentPath := if parentPath = [] then [rootName] else Join rootName parentPath
        let st := st.track parentPath
        let cleanedName := cleanName name
        (st.addFile parentPath cleanedName, none)

/-- The loop of lines 136-150: one entry for every tracked directory that has
files, in `dirOrder`. -/
def buildEntries (st : walkState) : List dirEntry :=
  st.dirOrder.foldl
    (fun entries dirPath =>
      let files := st.dirFiles dirPath
      if files.length > 0 then
        let displayName := Base dirPath
        let cleanedDirName := cleanDirName displayName
        entries ++ [{ name := cleanedDirName, files := files }]
      else entries)
    []

/-- `filepath.Base(root)`, which is the name `os.Lstat(root)` reports for the
root (it is not used when `Lstat` fails). -/
def rootBase : Lstat → Str
  | .ok d => d.Name
  | .error _ => []

/-- `walkDirectory` walks the directory tree and collects entries.  The
argument is what the file system holds at the root path; the result is the Go
pair `([]dirEntry, error)`, the nil slice being `[]`. -/
def walkDirectory (root : Lstat) : List dirEntry × Option WalkErr :=
  let rootName := rootBase root
  match WalkDir root (walkFn rootName) walkState.init with
  | (_, some err) => ([], some err)
  | (st, none) => (buildEntries st, none)

/-! ## HTML renderer (`main.go`, lines 190-217) -/

/-- `sb.WriteString(s)` on a `strings.Builder` holding `sb`. -/
def WriteString (sb : Str) (s : Str) : Str := sb ++ s

/-- `renderHTML` generates the HTML output from directory entries. -/
def renderHTML (entries : List dirEntry) : Str :=
  entries.foldl
    (fun sb entry =>
      let sb := WriteString sb "<h3>".toList
      let sb := WriteString sb (EscapeString entry.name)
      let sb := WriteString sb "</h3>\n".toList
      let sb := WriteString sb "<ul>\n".toList
      let sb := entry.files.foldl
        (fun sb file =>
          let sb := WriteString sb " \t<li>".toList
          let sb := WriteString sb (EscapeString file)
          WriteString sb "</li>\n".toList)
        sb
      WriteString sb "</ul>\n".toList)
    []

/-- A file node named by a string literal. -/
def mkFile (name : String) : Node := .file name.toList

/-- A readable directory node named by a string literal. -/
def mkDir (name : String) (entries : List Node) : Node := .dir name.toList none entries

/-- A sample tree: a root `docs` holding a file, a hidden file, an empty
subdirectory, a hidden subdirectory with a file, and a subdirectory with a file
and a nested subdirectory. -/
def docsTree : Node :=
  mkDir "docs" [mkFile "b_1.txt", mkFile ".keep", mkDir "void" [],
    mkDir ".git" [mkFile "config"], mkDir "a-dir" [mkDir "in" [mkFile "z.md"], mkFile "y.md"]]

/-! ## Statements taken from the specification -/

/-- The block the specification prescribes for one group: the heading line, the
list opening, one line per file made of a space, a tab and the list item, the
list closing. -/
def groupBlock (g : dirEntry) : Str :=
  "<h3>".toList ++ EscapeString g.name ++ "</h3>\n".toList ++ "<ul>\n".toList ++
    g.files.flatMap (fun file =>
      [' ', '\t'] ++ "<li>".toList ++ EscapeString file ++ "</li>\n".toList) ++
    "</ul>\n".toList

/-- The specification's extension stripping: the text after the last `.` goes,
together with that `.`; a name without `.` is kept. -/
def stripFinalExtension (name : Str) : Str :=
  if '.' ∈ name then (name.reverse.dropWhile (fun c => c ≠ '.')).tail.reverse else name

/-- The specification's replacement step: every `_` and every `-` becomes a
space. -/
def spaceOut (name : Str) : Str :=
  name.map (fun c => if c = '_' ∨ c = '-' then ' ' else c)

/-- The specification's file-name rule: strip the final extension, replace,
trim, in that order. -/
def cleanNameSpec (name : Str) : Str := TrimSpace (spaceOut (stripFinalExtension name))

/-- The text after the last `.` of a name (the whole name if it has no `.`). -/
def afterLastDot (name : Str) : Str :=
  (name.reverse.takeWhile (fun c => c ≠ '.')).reverse

/-- The five entities `html.EscapeString` writes. -/
def entities : List Str :=
  ["&amp;".toList, "&lt;".toList, "&gt;".toList, "&#34;".toList, "&#39;".toList]

/-- The five characters the specification wants escaped. -/
def isSpecial (c : Char) : Bool :=
  c = '&' || c = '<' || c = '>' || c = '"' || c = '\''

/-- Whether a node is a file (any non-directory) with a non-hidden name. -/
def Node.isVisibleFile (x : Node) : Bool := !x.IsDir && !isHidden x.Name

/-- The names of the non-hidden direct files of a directory, in listing order. -/
def visibleFiles : Node → List Str
  | .file _ => []
  | .dir _ _ es => (es.filter Node.isVisibleFile).map Node.Name

mutual
/-- The non-hidden directories reachable from a node through non-hidden
directories, in pre-order (the node itself first). -/
def visibleDirs : Node → List Node
  | .file _ => []
  | .dir n e es => if isHidden n then [] else .dir n e es :: visibleDirsIn es
/-- The same for the members of a listing, one after the other. -/
def visibleDirsIn : List Node → List Node
  | [] => []
  | x :: xs => visibleDirs x ++ visibleDirsIn xs
end

/-- The group the specification assigns to a directory: its own name cleaned by
the directory rule, and its non-hidden direct files cleaned by the file rule. -/
def groupOf (dir : Node) : dirEntry :=
  { name := cleanDirName dir.Name, files := (visibleFiles dir).map cleanName }

/-- The sequence of groups the specification prescribes for a root, on the
listings in the order the walk visits them. -/
def specGroups (root : Node) : List dirEntry :=
  ((visibleDirs (ReadDir root)).filter (fun dir => visibleFiles dir ≠ [])).map groupOf

mutual
/-- The first failing directory read among the non-hidden directories reachable
through non-hidden directories, in walk order. -/
def firstError : Node → Option IOError
  | .file _ => none
  | .dir n e es =>
    if isHidden n then none
    else match e with
      | some err => some err
      | none => firstErrorIn es
/-- The same for the members of a listing. -/
def firstErrorIn : List Node → Option IOError
  | [] => none
  | x :: xs =>
    match firstError x with
    | some err => some err
    | none => firstErrorIn xs
end

mutual
/-- Well-formedness of a directory tree: the names in one directory are
pairwise distinct, at every level. -/
def distinctNames : Node → Bool
  | .file _ => true
  | .dir _ _ es => decide (es.map Node.Name).Nodup && distinctNamesIn es
/-- The same for the members of a listing. -/
def distinctNamesIn : List Node → Bool
  | [] => true
  | x :: xs => distinctNames x && distinctNamesIn xs
end

mutual
/-- The tree without its hidden entries: every file and every directory whose
name starts with `.` is deleted from every listing, a directory with its whole
subtree. -/
def prune : Node → Node
  | .file n => .file n
  | .dir n e es => .dir n e (pruneIn es)
/-- The same for the members of a listing. -/
def pruneIn : List Node → List Node
  | [] => []
  | x :: xs => if isHidden x.Name then pruneIn xs else prune x :: pruneIn xs
end

/-! ## The walk as a sequence of visits -/

/-- A call of the function literal that changes the state: a non-hidden
directory with its key, or a non-hidden file with the key of its parent. -/
inductive Visit where
  | dir (key : Key)
  | file (key : Key) (name : Str)

/-- The key a visit tracks. -/
def Visit.key : Visit → Key
  | .dir k => k
  | .file k _ => k

/-- Whether a visit is that of a directory. -/
def Visit.isDir : Visit → Bool
  | .dir _ => true
  | .file _ _ => false

/-- Effect of one visit on the state. -/
def walkState.visit (st : walkState) : Visit → walkState
  | .dir k => st.track k
  | .file k n => (st.track k).addFile k (cleanName n)

mutual
/-- The visits made by an error-free walk of an entry `x` of the directory at
path `p` below a root named `r`. -/
def visits (r : Str) (p : Path) : Node → List Visit
  | .file n => if isHidden n then [] else [.file (r :: p) n]
  | .dir n _ es =>
    if isHidden n then [] else .dir (r :: (p ++ [n])) :: visitsIn r (p ++ [n]) es
/-- The visits made by an error-free walk of the listing of the directory at
path `p`. -/
def visitsIn (r : Str) (p : Path) : List Node → List Visit
  | [] => []
  | x :: xs => visits r p x ++ visitsIn r p xs
end

/-- The visits made by an error-free walk of the root. -/
def visitsRoot : Node → List Visit
  | .file n => if isHidden n then [] else [.file [".".toList] n]
  | .dir n _ es => if isHidden n then [] else .dir [n] :: visitsIn n [] es

/-- The keys of the directory visits, in order. -/
def dirKeys (vs : List Visit) : List Key :=
  vs.filterMap (fun v => match v with | .dir k => some k | .file _ _ => none)

/-- The cleaned names of the files visited under a key, in order. -/
def filesFor (k : Key) (vs : List Visit) : List Str :=
  vs.filterMap (fun v => match v with
    | .dir _ => none
    | .file k1 n => if k1 = k then some (cleanName n) else none)

/-- A sequence of visits in which every directory key is new when its directory
is visited and every file is visited after the directory of its key; `seen`
holds the keys tracked before. -/
def wellTracked : List Key → List Visit → Prop
  | _, [] => True
  | seen, .dir k :: vs => k ∉ seen ∧ wellTracked (seen ++ [k]) vs
  | seen, .file k _ :: vs => k ∈ seen ∧ wellTracked seen vs

/-- What the result shows of a directory: its name and its cleaned non-hidden
direct files. -/
def dirSummary (dir : Node) : Str × List Str :=
  (dir.Name, (visibleFiles dir).map cleanName)

/-- What the result shows of a key after the visits `vs`. -/
def keySummary (vs : List Visit) (k : Key) : Str × List Str :=
  (Base k, filesFor k vs)

mutual
/-- The names of the non-hidden files reachable from a node through non-hidden
directories (the node itself included when it is a file). -/
def reachableFiles : Node → List Str
  | .file n => if isHidden n then [] else [n]
  | .dir n _ es => if isHidden n then [] else reachableFilesIn es
/-- The same for the members of a listing. -/
def reachableFilesIn : List Node → List Str
  | [] => []
  | x :: xs => reachableFiles x ++ reachableFilesIn xs
end

/-! ## The walk with a record of `dirSeen[parentPath]` -/

/-- The key `parentPath` the file branch computes (lines 110-115). -/
def parentKey (rootName : Str) (path : Path) : Key :=
  let parentPath := RelDir path
  if parentPath = [] then [rootName] else Join rootName parentPath

/-- The function literal together with a ghost record: whenever the file branch
is entered, the value `dirSeen[parentPath]` read by the test of line 118 is
appended to the record.  The walk state is handled by `walkFn` itself. -/
def walkFnLogged (rootName : Str) : WalkDirFunc (walkState × List Bool) :=
  fun s path d err =>
    let r := walkFn rootName s.1 path d err
    let log := match err, d with
      | none, some d =>
        if !isHidden d.Name && !d.IsDir then s.2 ++ [s.1.dirSeen (parentKey rootName path)]
        else s.2
      | _, _ => s.2
    ((r.1, log), r.2)

/-- The values of `dirSeen[parentPath]` met at the files processed by a walk,
in order. -/
def seenAtFiles (root : Lstat) : List Bool :=
  (WalkDir root (walkFnLogged (rootBase root)) (walkState.init, [])).1.2

/-! ## Entry point (`main.go`, lines 18-65) -/

/-- A cleaned absolute path, as the list of the elements after the leading `/`;
the empty list is the file system root `/`. -/
abbrev AbsPath := List Str

/-- The text of an absolute path. -/
def AbsPath.text (p : AbsPath) : Str :=
  if p = [] then "/".toList else p.flatMap (fun name => '/' :: name)

/-- `filepath.Dir(absPath)`: all but the last element; "If the path consists
entirely of separators, Dir returns a single separator". -/
def Dir (p : AbsPath) : AbsPath := p.dropLast

/-- `filepath.Join(dir, name)` for a directory and a file name. -/
def JoinName (dir : AbsPath) (name : Str) : AbsPath := dir ++ [name]

/-- The output path of lines 56-57. -/
def outputPath (absPath : AbsPath) : AbsPath :=
  let parentDir := Dir absPath
  JoinName parentDir "tmp.html".toList

/-- Whether a path lies inside a directory: strictly below it. -/
def inside (dir file : AbsPath) : Bool := dir.isPrefixOf file && dir != file

/-- A call that `main` makes to the operating system. -/
inductive Access where
  | Stat (name : Str)
  | Abs (name : Str)
  | WalkDir (root : AbsPath)
  | WriteFile (name : AbsPath) (data : Str) (perm : Nat)
  deriving DecidableEq, Repr

/-- What the operating system answers to `main`: `os.Stat` (whether the target
is a directory), `filepath.Abs`, the tree found at an absolute path, the result
of `os.WriteFile`, and the text of an error. -/
structure OS where
  Stat : Str → Except IOError Bool
  Abs : Str → Except IOError AbsPath
  Lstat : AbsPath → Lstat
  WriteFile : AbsPath → Str → Option IOError
  Error : IOError → Str

/-- The text of a walk error (`%v`). -/
def WalkErr.text (os : OS) : WalkErr → Str
  | .SkipDir => "skip this directory".toList
  | .SkipAll => "skip everything and stop the walk".toList
  | .io e => os.Error e

/-- One run of the program: exit status, the two output streams and the calls
made to the operating system, in order. -/
structure Run where
  code : Nat
  stdout : Str
  stderr : Str
  accesses : List Access
  deriving DecidableEq, Repr

/-- The two usage lines. -/
def usageText : Str :=
  "Usage: doclist <directory>\n".toList ++
    "Converts a directory listing to WordPress-ready HTML format\n".toList

/-- `main`, with `os.Args` and the operating system as arguments. -/
def main (os : OS) (Args : List Str) : Run :=
  if Args.length < 2 then
    { code := 1, stdout := [], stderr := usageText, accesses := [] }
  else
    let targetDir := Args.getD 1 []
    -- Validate directory exists
    match os.Stat targetDir with
    | .error err =>
      { code := 1, stdout := [], accesses := [.Stat targetDir]
        stderr := "Error: ".toList ++ os.Error err ++ "\n".toList }
    | .ok isDir =>
      if !isDir then
        { code := 1, stdout := [], accesses := [.Stat targetDir]
          stderr := "Error: '".toList ++ targetDir ++ "' is not a directory\n".toList }
      else
        -- Get absolute path
        match os.Abs targetDir with
        | .error err =>
          { code := 1, stdout := [], accesses := [.Stat targetDir, .Abs targetDir]
            stderr := "Error resolving path: ".toList ++ os.Error err ++ "\n".toList }
        | .ok absPath =>
          -- Walk directory and collect entries
          match walkDirectory (os.Lstat absPath) with
          | (_, some err) =>
            { code := 1, stdout := []
              accesses := [.Stat targetDir, .Abs targetDir, .WalkDir absPath]
              stderr := "Error walking directory: ".toList ++ err.text os ++ "\n".toList }
          | (entries, none) =>
            -- Generate HTML
            let htmlOutput := renderHTML entries
            -- Write to tmp.html in the parent directory of the target
            let outputPath := outputPath absPath
            match os.WriteFile outputPath htmlOutput with
            | some err =>
              { code := 1, stdout := []
                accesses := [.Stat targetDir, .Abs targetDir, .WalkDir absPath,
                  .WriteFile outputPath htmlOutput 0o644]
                stderr := "Error writing output: ".toList ++ os.Error err ++ "\n".toList }
            | none =>
              { code := 0, stderr := []
                accesses := [.Stat targetDir, .Abs targetDir, .WalkDir absPath,
                  .WriteFile outputPath htmlOutput 0o644]
                stdout := "Done! Output saved to: ".toList ++ outputPath.text ++ "\n".toList }

/-- A sample system: the argument `docs` names the directory `/home/docs`, which
holds `docsTree`; every call succeeds. -/
def sampleOS : OS where
  Stat := fun name => if name = "docs".toList then .ok true else .error .ENOENT
  Abs := fun name => .ok ["home".toList, name]
  Lstat := fun p => if p = ["home".toList, "docs".toList] then .ok docsTree else .error .ENOENT
  WriteFile := fun _ _ => none
  Error := fun _ => "error".toList

/-- A system in which the argument `my-link` names `/home/my-link`, a symbolic
link to a directory: `os.Stat`, which follows links, reports a directory, and
`os.Lstat`, which does not, reports the link itself, a non-directory. -/
def linkOS : OS where
  Stat := fun name => if name = "my-link".toList then .ok true else .error .ENOENT
  Abs := fun name => .ok ["home".toList, name]
  Lstat := fun p =>
    if p = ["home".toList, "my-link".toList] then .ok (.file "my-link".toList)
    else .error .ENOENT
  WriteFile := fun _ _ => none
  Error := fun _ => "error".toList

/-! ## Lemmas on the string routines -/

theorem replaceFrom_single (a b : Char) (s : Str) :
    replaceFrom [a] [b] 0 s = s.map (fun c => if c = a then b else c) := by
  induction s with
  | nil => rfl
  | cons c s ih =>
    by_cases h : c = a
    · subst h
      simp [replaceFrom, ih]
    · have h2 : ¬ a = c := fun e => h e.symm
      simp [replaceFrom, ih, h, h2]

theorem ReplaceAll_single (a b : Char) (s : Str) :
    ReplaceAll s [a] [b] = s.map (fun c => if c = a then b else c) := by
  simp [ReplaceAll, replaceFrom_single]

theorem replace_both (s : Str) :
    ReplaceAll (ReplaceAll s "_".toList " ".toList) "-".toList " ".toList = spaceOut s := by
  show ReplaceAll (ReplaceAll s ['_'] [' ']) ['-'] [' '] = spaceOut s
  rw [ReplaceAll_single, ReplaceAll_single, spaceOut, List.map_map]
  apply List.map_congr_left
  intro c _
  by_cases h1 : c = '_'
  · subst h1; decide
  · by_cases h2 : c = '-'
    · subst h2; decide
    · simp [h1, h2]

theorem cleanDirName_eq (name : Str) : cleanDirName name = TrimSpace (spaceOut name) := by
  simp only [cleanDirName, replace_both]

theorem cleanName_eq (name : Str) :
    cleanName name =
      TrimSpace (spaceOut (if Ext name ≠ [] then TrimSuffix name (Ext name) else name)) := by
  simp only [cleanName, replace_both]

theorem TrimSpace_subset (s : Str) : ∀ c ∈ TrimSpace s, c ∈ s := by
  intro c hc
  have h1 := (List.dropWhile_sublist IsSpace (l := (s.dropWhile IsSpace).reverse)).subset
    (List.mem_reverse.mp hc)
  exact (List.dropWhile_sublist IsSpace).subset (List.mem_reverse.mp h1)

theorem extFrom_no_dot (r acc : Str) (h : '.' ∉ r) : extFrom r acc = [] := by
  induction r generalizing acc with
  | nil => rfl
  | cons c r ih =>
    have hc : c ≠ '.' := fun e => h (e ▸ List.mem_cons_self _ _)
    have hr : '.' ∉ r := fun m => h (List.mem_cons_of_mem _ m)
    by_cases h1 : c = '/'
    · simp [extFrom, h1]
    · simp [extFrom, h1, hc, ih _ hr]

theorem extFrom_dot (r1 r2 acc : Str) (h1 : '.' ∉ r1) (h2 : '/' ∉ r1) :
    extFrom (r1 ++ '.' :: r2) acc = '.' :: (r1.reverse ++ acc) := by
  induction r1 generalizing acc with
  | nil => simp [extFrom]
  | cons c r ih =>
    have hc1 : c ≠ '.' := fun e => h1 (e ▸ List.mem_cons_self _ _)
    have hc2 : c ≠ '/' := fun e => h2 (e ▸ List.mem_cons_self _ _)
    have hr1 : '.' ∉ r := fun m => h1 (List.mem_cons_of_mem _ m)
    have hr2 : '/' ∉ r := fun m => h2 (List.mem_cons_of_mem _ m)
    simp [extFrom, hc1, hc2, ih _ hr1 hr2]

theorem extFrom_slash (r1 r2 acc : Str) (h1 : '.' ∉ r1) (h2 : '/' ∈ r1) :
    extFrom (r1 ++ r2) acc = [] := by
  induction r1 generalizing acc with
  | nil => simp at h2
  | cons c r ih =>
    have hc1 : c ≠ '.' := fun e => h1 (e ▸ List.mem_cons_self _ _)
    have hr1 : '.' ∉ r := fun m => h1 (List.mem_cons_of_mem _ m)
    by_cases hc : c = '/'
    · simp [extFrom, hc]
    · have hr2 : '/' ∈ r := by
        rcases List.mem_cons.mp h2 with e | m
        · exact absurd e.symm hc
        · exact m
      simp [extFrom, hc, hc1, ih _ hr1 hr2]

/-- Splitting a reversed name at its first `.` (the last `.` of the name). -/
theorem split_at_dot (r : Str) (h : '.' ∈ r) :
    ∃ r1 r2, r = r1 ++ '.' :: r2 ∧ '.' ∉ r1 ∧
      r.takeWhile (fun c => c ≠ '.') = r1 ∧ r.dropWhile (fun c => c ≠ '.') = '.' :: r2 := by
  induction r with
  | nil => simp at h
  | cons c r ih =>
    by_cases hc : c = '.'
    · subst hc
      exact ⟨[], r, by simp, by simp, by simp, by simp⟩
    · have hr : '.' ∈ r := by
        rcases List.mem_cons.mp h with e | m
        · exact absurd e.symm hc
        · exact m
      obtain ⟨r1, r2, e, n, t, dw⟩ := ih hr
      refine ⟨c :: r1, r2, by simp [e], ?_, ?_, ?_⟩
      · simp [hc, n, Ne.symm hc]
      · rw [List.takeWhile_cons, if_pos (by simpa using hc), t]
      · rw [List.dropWhile_cons, if_pos (by simpa using hc), dw]

theorem not_mem_spaceOut (s : Str) : '_' ∉ spaceOut s ∧ '-' ∉ spaceOut s := by
  constructor
  all_goals
    intro h
    simp only [spaceOut, List.mem_map] at h
    obtain ⟨a, _, e⟩ := h
    by_cases h1 : a = '_' ∨ a = '-'
    · rw [if_pos h1] at e
      revert e
      decide
    · rw [if_neg h1] at e
      exact h1 (by simp [e])

theorem escapeChar_special (c : Char) (h : isSpecial c = true) : escapeChar c ∈ entities := by
  simp only [isSpecial, Bool.or_eq_true, decide_eq_true_eq] at h
  rcases h with (((h | h) | h) | h) | h <;> subst h <;> decide

theorem escapeChar_plain (c : Char) (h : isSpecial c = false) : escapeChar c = [c] := by
  simp only [isSpecial, Bool.or_eq_false_iff, decide_eq_false_iff_not] at h
  obtain ⟨⟨⟨⟨h1, h2⟩, h3⟩, h4⟩, h5⟩ := h
  simp [escapeChar, h1, h2, h3, h4, h5]

theorem renderHTML_eq (entries : List dirEntry) :
    renderHTML entries = entries.flatMap groupBlock := by
  have inner : ∀ (files : List Str) (sb : Str),
      files.foldl (fun sb file =>
          WriteString (WriteString (WriteString sb " \t<li>".toList) (EscapeString file))
            "</li>\n".toList) sb =
        sb ++ files.flatMap (fun file =>
          [' ', '\t'] ++ "<li>".toList ++ EscapeString file ++ "</li>\n".toList) := by
    intro files
    induction files with
    | nil => simp
    | cons x l ih =>
      intro sb
      rw [List.foldl_cons, ih]
      simp [WriteString, List.flatMap_cons]
  have outer : ∀ (es : List dirEntry) (sb : Str),
      es.foldl (fun sb entry =>
          WriteString
            (entry.files.foldl (fun sb file =>
              WriteString (WriteString (WriteString sb " \t<li>".toList) (EscapeString file))
                "</li>\n".toList)
              (WriteString (WriteString (WriteString (WriteString sb "<h3>".toList)
                (EscapeString entry.name)) "</h3>\n".toList) "<ul>\n".toList))
            "</ul>\n".toList) sb =
        sb ++ es.flatMap groupBlock := by
    intro es
    induction es with
    | nil => simp
    | cons x l ih =>
      intro sb
      rw [List.foldl_cons, ih, inner]
      simp [WriteString, List.flatMap_cons, groupBlock]
  exact outer entries []

theorem entity_amp (e : Str) (he : e ∈ entities) (j : Nat) (hj : e[j]? = some '&') :
    j = 0 := by
  simp only [entities, List.mem_cons, List.mem_singleton, List.not_mem_nil, or_false] at he
  rcases he with h | h | h | h | h <;> subst h <;>
    rcases j with _ | _ | _ | _ | _ | _ | j <;>
    first
      | rfl
      | (exfalso; revert hj; decide)
      | (exfalso; simp [String.toList] at hj)

theorem amp_starts_entity (s : Str) (i : Nat) (h : (EscapeString s)[i]? = some '&') :
    ∃ e ∈ entities, e <+: (EscapeString s).drop i := by
  induction s generalizing i with
  | nil => simp [EscapeString] at h
  | cons c s ih =>
    have hcons : EscapeString (c :: s) = escapeChar c ++ EscapeString s := by
      simp [EscapeString, List.flatMap_cons]
    rw [hcons] at h ⊢
    by_cases hlt : i < (escapeChar c).length
    · rw [List.getElem?_append_left hlt] at h
      cases hsp : isSpecial c with
      | true =>
        have hent := escapeChar_special c hsp
        have h0 := entity_amp _ hent i h
        subst h0
        exact ⟨escapeChar c, hent, by simp⟩
      | false =>
        rw [escapeChar_plain c hsp] at h hlt
        have h0 : i = 0 := by simpa using hlt
        subst h0
        simp only [List.getElem?_cons_zero, Option.some.injEq] at h
        subst h
        exact absurd hsp (by decide)
    · have hge : (escapeChar c).length ≤ i := Nat.le_of_not_lt hlt
      rw [List.getElem?_append_right hge] at h
      obtain ⟨e, he, hp⟩ := ih _ h
      refine ⟨e, he, ?_⟩
      rw [List.drop_append_eq_append_drop, List.drop_eq_nil_of_le hge]
      simpa using hp

theorem strip_eq_of_split (name r1 r2 : Str) (e : name.reverse = r1 ++ '.' :: r2)
    (n : '.' ∉ r1) (hs : '/' ∉ r1) :
    (if Ext name ≠ [] then TrimSuffix name (Ext name) else name) = r2.reverse := by
  have hname : name = r2.reverse ++ '.' :: r1.reverse := by
    have := congrArg List.reverse e
    simpa using this
  have hext : Ext name = '.' :: r1.reverse := by
    show extFrom name.reverse [] = _
    rw [e, extFrom_dot r1 r2 [] n hs]
    simp
  have hsuf : HasSuffix name ('.' :: r1.reverse) = true := by
    simp only [HasSuffix, List.isSuffixOf_iff_suffix]
    exact ⟨r2.reverse, hname.symm⟩
  rw [hext, if_pos (by simp), TrimSuffix, if_pos hsuf]
  conv_lhs => rw [hname]
  simp

/-! ## Lemmas on the walk -/

theorem dotdot_hidden (n : Str) (h : isHidden n = false) : n ≠ "..".toList := by
  intro e
  subst e
  revert h
  decide

theorem Join_of_ne (r : Str) (rel : List Str) (h : rel ≠ ["..".toList]) :
    Join r rel = r :: rel := by
  unfold Join
  exact if_neg h

theorem walkFn_err (r : Str) (st : walkState) (p : Path) (d : Option DirEntry)
    (e : WalkErr) : walkFn r st p d (some e) = (st, some e) := rfl

theorem walkFn_hidden_dir (r : Str) (st : walkState) (p : Path) (n : Str)
    (h : isHidden n = true) :
    walkFn r st p (some ⟨n, true⟩) none = (st, some .SkipDir) := by
  simp [walkFn, h]

theorem walkFn_hidden_file (r : Str) (st : walkState) (p : Path) (n : Str)
    (h : isHidden n = true) :
    walkFn r st p (some ⟨n, false⟩) none = (st, none) := by
  simp [walkFn, h]

theorem walkFn_dir (r : Str) (st : walkState) (p : Path) (n : Str)
    (h : isHidden n = false) :
    walkFn r st (p ++ [n]) (some ⟨n, true⟩) none = (st.track (r :: (p ++ [n])), none) := by
  have h1 : p ++ [n] ≠ [] := by simp
  have h2 : p ++ [n] ≠ ["..".toList] := by
    intro e
    have := congrArg List.getLast? e
    simp at this
    exact dotdot_hidden n h this
  simp [walkFn, h, Rel, Join_of_ne r _ h2]

theorem walkFn_file (r : Str) (st : walkState) (p : Path) (n : Str)
    (h : isHidden n = false) (hp : p ≠ ["..".toList]) :
    walkFn r st (p ++ [n]) (some ⟨n, false⟩) none =
      ((st.track (r :: p)).addFile (r :: p) (cleanName n), none) := by
  by_cases h0 : p = []
  · subst h0
    simp [walkFn, h, RelDir]
  · simp [walkFn, h, RelDir, Join_of_ne r _ hp, h0]

mutual
theorem walkDir_run (r : Str) (p : Path) (hp : p ≠ ["..".toList]) :
    ∀ (x : Node) (st : walkState),
      (walkDir (walkFn r) (p ++ [x.Name]) x st).2 = (firstError x).map WalkErr.io ∧
      (firstError x = none →
        (walkDir (walkFn r) (p ++ [x.Name]) x st).1 = (visits r p x).foldl walkState.visit st)
  | .file n, st => by
    cases h : isHidden n with
    | true => simp [walkDir, visits, firstError, Node.Name, walkFn_hidden_file, h]
    | false =>
      simp [walkDir, visits, firstError, Node.Name, walkFn_file r st p n h hp, h,
        walkState.visit]
  | .dir n e es, st => by
    cases h : isHidden n with
    | true => simp [walkDir, visits, firstError, Node.Name, walkFn_hidden_dir, h]
    | false =>
      have hp2 : p ++ [n] ≠ ["..".toList] := by
        intro e
        have := congrArg List.getLast? e
        simp at this
        exact dotdot_hidden n h this
      cases e with
      | some err =>
        simp [walkDir, firstError, Node.Name, walkFn_dir r st p n h, h, walkFn_err]
      | none =>
        have ih := walkDirs_run r (p ++ [n]) hp2 es (st.track (r :: (p ++ [n])))
        simp only [walkDir, Node.Name, walkFn_dir r st p n h, firstError, h, visits,
          List.foldl_cons, walkState.visit]
        exact ih
theorem walkDirs_run (r : Str) (p : Path) (hp : p ≠ ["..".toList]) :
    ∀ (es : List Node) (st : walkState),
      (walkDirs (walkFn r) p es st).2 = (firstErrorIn es).map WalkErr.io ∧
      (firstErrorIn es = none →
        (walkDirs (walkFn r) p es st).1 = (visitsIn r p es).foldl walkState.visit st)
  | [], st => by simp [walkDirs, visitsIn, firstErrorIn]
  | x :: xs, st => by
    have ih1 := walkDir_run r p hp x st
    rw [walkDirs, visitsIn, firstErrorIn]
    rcases hw : walkDir (walkFn r) (p ++ [x.Name]) x st with ⟨st1, e1⟩
    rw [hw] at ih1
    cases hx : firstError x with
    | some err =>
      rw [hx] at ih1
      have he : e1 = some (WalkErr.io err) := ih1.1
      subst he
      simp
    | none =>
      rw [hx] at ih1
      have he : e1 = none := ih1.1
      have hs : st1 = (visits r p x).foldl walkState.visit st := ih1.2 rfl
      subst he
      have ih2 := walkDirs_run r p hp xs st1
      simp only [List.foldl_append, ← hs]
      exact ih2
end

theorem walkDir_root (root : Node) (st : walkState) :
    (walkDir (walkFn root.Name) [] root st).2 = (firstError root).map WalkErr.io ∧
    (firstError root = none →
      (walkDir (walkFn root.Name) [] root st).1 = (visitsRoot root).foldl walkState.visit st) := by
  cases root with
  | file n =>
    cases h : isHidden n with
    | true => simp [walkDir, visitsRoot, firstError, Node.Name, walkFn, h]
    | false =>
      have hj : Join n [['.', '.']] = [['.']] := by simp [Join]
      simp [walkDir, visitsRoot, firstError, Node.Name, walkFn, h, RelDir, hj, walkState.visit]
  | dir n e es =>
    cases h : isHidden n with
    | true => simp [walkDir, visitsRoot, firstError, Node.Name, walkFn, h]
    | false =>
      have hfn : walkFn n st [] (some ⟨n, true⟩) none = (st.track [n], none) := by
        simp [walkFn, h, Rel]
      cases e with
      | some err => simp [walkDir, firstError, Node.Name, hfn, h, walkFn_err]
      | none =>
        have ih := walkDirs_run n [] (by decide) es (st.track [n])
        simp only [walkDir, Node.Name, hfn, firstError, h, visitsRoot, List.foldl_cons,
          walkState.visit]
        exact ih

theorem ReadDir_Name (x : Node) : (ReadDir x).Name = x.Name := by
  cases x <;> simp [ReadDir, Node.Name]

theorem walkDirectory_ok (root : Node) :
    walkDirectory (.ok root) =
      match firstError (ReadDir root) with
      | some e => ([], some (.io e))
      | none => (buildEntries ((visitsRoot (ReadDir root)).foldl walkState.visit walkState.init),
          none) := by
  have h := walkDir_root (ReadDir root) walkState.init
  rw [ReadDir_Name] at h
  simp only [walkDirectory, WalkDir, rootBase]
  rcases hw : walkDir (walkFn root.Name) [] (ReadDir root) walkState.init with ⟨st1, e1⟩
  rw [hw] at h
  cases hx : firstError (ReadDir root) with
  | some err =>
    rw [hx] at h
    have he : e1 = some (WalkErr.io err) := h.1
    subst he
    simp
  | none =>
    rw [hx] at h
    have he : e1 = none := h.1
    have hs : st1 = (visitsRoot (ReadDir root)).foldl walkState.visit walkState.init := h.2 rfl
    subst he
    simp [hs]

theorem walkDirectory_error (e : IOError) :
    walkDirectory (.error e) = ([], some (.io e)) := by
  simp [walkDirectory, WalkDir, walkFn]

theorem buildEntries_eq (st : walkState) :
    buildEntries st =
      (st.dirOrder.filter (fun k => decide (st.dirFiles k ≠ []))).map
        (fun k => { name := cleanDirName (Base k), files := st.dirFiles k }) := by
  have gen : ∀ (l : List Key) (acc : List dirEntry),
      l.foldl (fun entries dirPath =>
          if (st.dirFiles dirPath).length > 0 then
            entries ++ [{ name := cleanDirName (Base dirPath), files := st.dirFiles dirPath }]
          else entries) acc =
        acc ++ (l.filter (fun k => decide (st.dirFiles k ≠ []))).map
          (fun k => { name := cleanDirName (Base k), files := st.dirFiles k }) := by
    intro l
    induction l with
    | nil => simp
    | cons k l ih =>
      intro acc
      rw [List.foldl_cons, ih]
      by_cases hk : st.dirFiles k = []
      · simp [hk]
      · have hpos : (st.dirFiles k).length > 0 := List.length_pos.mpr hk
        simp [hk, hpos]
  simpa [buildEntries] using gen st.dirOrder []

theorem fold_visits (vs : List Visit) :
    ∀ st : walkState, (∀ k, st.dirSeen k = decide (k ∈ st.dirOrder)) →
      (∀ k, st.dirSeen k = false → st.dirFiles k = []) →
      wellTracked st.dirOrder vs →
      (vs.foldl walkState.visit st).dirOrder = st.dirOrder ++ dirKeys vs ∧
      ∀ k, (vs.foldl walkState.visit st).dirFiles k = st.dirFiles k ++ filesFor k vs := by
  induction vs with
  | nil => intro st _ _ _; simp [dirKeys, filesFor]
  | cons v vs ih =>
    intro st hseen hfiles hwt
    cases v with
    | dir k0 =>
      obtain ⟨hnew, hwt2⟩ := hwt
      have hs : st.dirSeen k0 = false := by rw [hseen]; simpa using hnew
      have htrack : st.track k0 =
          { dirSeen := fun k => if k = k0 then true else st.dirSeen k
            dirOrder := st.dirOrder ++ [k0]
            dirFiles := fun k => if k = k0 then [] else st.dirFiles k } := by
        simp [walkState.track, hs]
      have ih2 := ih (st.track k0)
        (by
          intro k
          rw [htrack]
          by_cases hk : k = k0
          · simp [hk]
          · simp [hk, hseen])
        (by
          intro k
          rw [htrack]
          by_cases hk : k = k0
          · simp [hk]
          · simpa [hk] using hfiles k)
        (by rw [htrack]; exact hwt2)
      have hv : st.visit (.dir k0) = st.track k0 := rfl
      rw [List.foldl_cons, hv]
      refine ⟨?_, fun k => ?_⟩
      · rw [ih2.1, htrack]
        simp [dirKeys, List.filterMap_cons]
      · rw [ih2.2 k, htrack]
        by_cases hk : k = k0
        · subst hk
          simp [filesFor, List.filterMap_cons, hfiles k hs]
        · simp [filesFor, List.filterMap_cons, hk]
    | file k0 n =>
      obtain ⟨hold, hwt2⟩ := hwt
      have hs : st.dirSeen k0 = true := by rw [hseen]; simpa using hold
      have htrack : st.track k0 = st := by simp [walkState.track, hs]
      have ih2 := ih ((st.track k0).addFile k0 (cleanName n))
        (by intro k; rw [htrack]; exact hseen k)
        (by
          intro k hk
          rw [htrack] at hk ⊢
          have hne : k ≠ k0 := by
            intro e
            rw [e] at hk
            have hk2 : st.dirSeen k0 = false := hk
            rw [hs] at hk2
            exact Bool.noConfusion hk2
          have := hfiles k hk
          simpa [walkState.addFile, hne] using this)
        (by rw [htrack]; exact hwt2)
      have hv : st.visit (.file k0 n) = (st.track k0).addFile k0 (cleanName n) := rfl
      rw [List.foldl_cons, hv]
      refine ⟨?_, fun k => ?_⟩
      · rw [ih2.1, htrack]
        simp [dirKeys, List.filterMap_cons, walkState.addFile]
      · rw [ih2.2 k, htrack]
        by_cases hk : k = k0
        · subst hk
          simp [filesFor, List.filterMap_cons, walkState.addFile]
        · have hk2 : ¬ k0 = k := fun e => hk e.symm
          simp [filesFor, List.filterMap_cons, walkState.addFile, hk, hk2]

theorem fold_visits_init (vs : List Visit) (h : wellTracked [] vs) :
    (vs.foldl walkState.visit walkState.init).dirOrder = dirKeys vs ∧
    ∀ k, (vs.foldl walkState.visit walkState.init).dirFiles k = filesFor k vs := by
  have := fold_visits vs walkState.init (by intro k; simp [walkState.init])
    (by intro k _; rfl) h
  simpa [walkState.init] using this

/-! ## Keys of the visits of a tree -/

theorem prefix_snoc_unique (a k : Key) (x y : Str) (hx : (a ++ [x]) <+: k)
    (hy : (a ++ [y]) <+: k) : x = y := by
  obtain ⟨t1, e1⟩ := hx
  obtain ⟨t2, e2⟩ := hy
  have e : a ++ (x :: t1) = a ++ (y :: t2) := by
    simpa using e1.trans e2.symm
  have := List.append_cancel_left e
  exact (List.cons.inj this).1

theorem not_prefix_snoc (a : Key) (x : Str) : ¬ (a ++ [x]) <+: a := by
  intro h
  have := h.length_le
  simp at this

theorem mem_dirKeys (k : Key) (vs : List Visit) :
    k ∈ dirKeys vs ↔ Visit.dir k ∈ vs := by
  induction vs with
  | nil => simp [dirKeys]
  | cons v vs ih =>
    cases v with
    | dir k0 =>
      simp only [dirKeys, List.filterMap_cons, List.mem_cons] at ih ⊢
      rw [ih]
      constructor
      · rintro (h | h)
        · exact Or.inl (by rw [h])
        · exact Or.inr h
      · rintro (h | h)
        · exact Or.inl (by injection h)
        · exact Or.inr h
    | file k0 n =>
      simp only [dirKeys, List.filterMap_cons, List.mem_cons] at ih ⊢
      rw [ih]
      simp

theorem dirKeys_append (a b : List Visit) : dirKeys (a ++ b) = dirKeys a ++ dirKeys b := by
  simp [dirKeys, List.filterMap_append]

theorem filesFor_append (k : Key) (a b : List Visit) :
    filesFor k (a ++ b) = filesFor k a ++ filesFor k b := by
  simp [filesFor, List.filterMap_append]

theorem filesFor_eq_nil (k : Key) (vs : List Visit)
    (h : ∀ v ∈ vs, v.isDir = false → v.key ≠ k) : filesFor k vs = [] := by
  induction vs with
  | nil => rfl
  | cons v vs ih =>
    have ih2 := ih (fun w hw => h w (List.mem_cons_of_mem _ hw))
    cases v with
    | dir k0 => simpa [filesFor, List.filterMap_cons] using ih2
    | file k0 n =>
      have hne : k0 ≠ k := h (.file k0 n) (List.mem_cons_self _ _) rfl
      simpa [filesFor, List.filterMap_cons, hne] using ih2

mutual
theorem visits_shape (r : Str) (p : Path) :
    ∀ (x : Node), ∀ v ∈ visits r p x,
      (r :: (p ++ [x.Name])) <+: v.key ∨
        (x.IsDir = false ∧ v.isDir = false ∧ v.key = r :: p)
  | .file n, v, hv => by
    cases h : isHidden n with
    | true => simp [visits, h] at hv
    | false =>
      simp only [visits, h, Bool.false_eq_true, if_false, List.mem_singleton] at hv
      subst hv
      exact Or.inr ⟨rfl, rfl, rfl⟩
  | .dir n e es, v, hv => by
    cases h : isHidden n with
    | true => simp [visits, h] at hv
    | false =>
      simp only [visits, h, Bool.false_eq_true, if_false, List.mem_cons] at hv
      left
      rcases hv with hv | hv
      · subst hv
        exact List.prefix_refl _
      · rcases visitsIn_shape r (p ++ [n]) es v hv with ⟨y, _, hy⟩ | ⟨_, hk⟩
        · refine List.IsPrefix.trans ?_ hy
          exact ⟨[y.Name], by simp [Node.Name]⟩
        · rw [hk]
          exact List.prefix_refl _
theorem visitsIn_shape (r : Str) (p : Path) :
    ∀ (es : List Node), ∀ v ∈ visitsIn r p es,
      (∃ x ∈ es, (r :: (p ++ [x.Name])) <+: v.key) ∨ (v.isDir = false ∧ v.key = r :: p)
  | [], v, hv => by simp [visitsIn] at hv
  | x :: xs, v, hv => by
    simp only [visitsIn, List.mem_append] at hv
    rcases hv with hv | hv
    · rcases visits_shape r p x v hv with h | ⟨_, h⟩
      · exact Or.inl ⟨x, List.mem_cons_self _ _, h⟩
      · exact Or.inr h
    · rcases visitsIn_shape r p xs v hv with ⟨y, hy, h⟩ | h
      · exact Or.inl ⟨y, List.mem_cons_of_mem _ hy, h⟩
      · exact Or.inr h
end

theorem dirKey_under (r : Str) (p : Path) (x : Node) (k : Key)
    (hk : k ∈ dirKeys (visits r p x)) : (r :: (p ++ [x.Name])) <+: k := by
  rcases visits_shape r p x _ ((mem_dirKeys _ _).mp hk) with h | ⟨_, h, _⟩
  · exact h
  · exact absurd h (by simp [Visit.isDir])

theorem dirKeyIn_under (r : Str) (p : Path) (es : List Node) (k : Key)
    (hk : k ∈ dirKeys (visitsIn r p es)) : ∃ x ∈ es, (r :: (p ++ [x.Name])) <+: k := by
  rcases visitsIn_shape r p es _ ((mem_dirKeys _ _).mp hk) with h | ⟨h, _⟩
  · exact h
  · exact absurd h (by simp [Visit.isDir])

theorem wellTracked_append (a b : List Visit) :
    ∀ seen, wellTracked seen (a ++ b) ↔
      wellTracked seen a ∧ wellTracked (seen ++ dirKeys a) b := by
  induction a with
  | nil => intro seen; simp [wellTracked, dirKeys]
  | cons v a ih =>
    intro seen
    cases v with
    | dir k =>
      have hd : dirKeys (Visit.dir k :: a) = k :: dirKeys a := rfl
      show (k ∉ seen ∧ wellTracked (seen ++ [k]) (a ++ b)) ↔
        (k ∉ seen ∧ wellTracked (seen ++ [k]) a) ∧ _
      rw [ih, hd, and_assoc]
      simp
    | file k n =>
      have hd : dirKeys (Visit.file k n :: a) = dirKeys a := rfl
      show (k ∈ seen ∧ wellTracked seen (a ++ b)) ↔ (k ∈ seen ∧ wellTracked seen a) ∧ _
      rw [ih, hd, and_assoc]

theorem distinctNames_dir (n : Str) (e : Option IOError) (es : List Node) :
    distinctNames (.dir n e es) = true ↔
      (es.map Node.Name).Nodup ∧ distinctNamesIn es = true := by
  simp [distinctNames]

theorem distinctNamesIn_cons (x : Node) (xs : List Node) :
    distinctNamesIn (x :: xs) = true ↔ distinctNames x = true ∧ distinctNamesIn xs = true := by
  simp [distinctNamesIn]

theorem distinctNamesIn_iff (es : List Node) :
    distinctNamesIn es = true ↔ ∀ x ∈ es, distinctNames x = true := by
  induction es with
  | nil => simp [distinctNamesIn]
  | cons x xs ih => simp [distinctNamesIn_cons, ih]

mutual
theorem visits_wellTracked (r : Str) (p : Path) :
    ∀ (x : Node) (seen : List Key), distinctNames x = true → (r :: p) ∈ seen →
      (∀ k ∈ seen, ¬ (r :: (p ++ [x.Name])) <+: k) → wellTracked seen (visits r p x)
  | .file n, seen, _, hin, _ => by
    cases h : isHidden n with
    | true => simp [visits, h, wellTracked]
    | false => simp [visits, h, wellTracked, hin]
  | .dir n e es, seen, hd, _, hfresh => by
    cases h : isHidden n with
    | true => simp [visits, h, wellTracked]
    | false =>
      obtain ⟨hnd, hds⟩ := (distinctNames_dir n e es).mp hd
      simp only [visits, h, Bool.false_eq_true, if_false, wellTracked]
      refine ⟨fun hm => hfresh _ hm (List.prefix_refl _), ?_⟩
      apply visitsIn_wellTracked r (p ++ [n]) es _ hds hnd (by simp)
      intro k hk y _ hpre
      rcases List.mem_append.mp hk with hk | hk
      · apply hfresh k hk
        refine List.IsPrefix.trans ?_ hpre
        exact ⟨[y.Name], by simp [Node.Name]⟩
      · have hk : k = r :: (p ++ [n]) := by simpa using hk
        subst hk
        simp at hpre
theorem visitsIn_wellTracked (r : Str) (p : Path) :
    ∀ (es : List Node) (seen : List Key), distinctNamesIn es = true →
      (es.map Node.Name).Nodup → (r :: p) ∈ seen →
      (∀ k ∈ seen, ∀ x ∈ es, ¬ (r :: (p ++ [x.Name])) <+: k) →
      wellTracked seen (visitsIn r p es)
  | [], seen, _, _, _, _ => by simp [visitsIn, wellTracked]
  | x :: xs, seen, hd, hnd, hin, hfresh => by
    obtain ⟨hdx, hdxs⟩ := (distinctNamesIn_cons x xs).mp hd
    have hnd2 : x.Name ∉ xs.map Node.Name ∧ (xs.map Node.Name).Nodup := by
      simpa using hnd
    rw [visitsIn, wellTracked_append]
    refine ⟨visits_wellTracked r p x seen hdx hin
      (fun k hk => hfresh k hk x (List.mem_cons_self _ _)), ?_⟩
    apply visitsIn_wellTracked r p xs _ hdxs hnd2.2 (List.mem_append_left _ hin)
    intro k hk y hy hpre
    rcases List.mem_append.mp hk with hk | hk
    · exact hfresh k hk y (List.mem_cons_of_mem _ hy) hpre
    · have hx := dirKey_under r p x k hk
      have hxy : x.Name = y.Name := by
        apply prefix_snoc_unique (r :: p) k
        · simpa using hx
        · simpa using hpre
      exact hnd2.1 (hxy ▸ List.mem_map_of_mem _ hy)
end

theorem visitsRoot_wellTracked (n : Str) (e : Option IOError) (es : List Node)
    (hv : isHidden n = false) (hd : distinctNames (.dir n e es) = true) :
    wellTracked [] (visitsRoot (.dir n e es)) := by
  obtain ⟨hnd, hds⟩ := (distinctNames_dir n e es).mp hd
  simp only [visitsRoot, hv, Bool.false_eq_true, if_false, wellTracked]
  refine ⟨by simp, ?_⟩
  apply visitsIn_wellTracked n [] es _ hds hnd (by simp)
  intro k hk y _ hpre
  have hk : k = [n] := by simpa using hk
  subst hk
  simp at hpre

theorem Base_snoc (r : Str) (p : Path) (n : Str) : Base (r :: (p ++ [n])) = n := by
  unfold Base
  rw [List.getLastD_cons, List.getLastD_concat]

theorem filesFor_dir_cons (k k0 : Key) (vs : List Visit) :
    filesFor k (Visit.dir k0 :: vs) = filesFor k vs := rfl

theorem filesFor_other (r : Str) (p : Path) (x y : Node) (hxy : x.Name ≠ y.Name) (k : Key)
    (hk : (r :: (p ++ [y.Name])) <+: k) : filesFor k (visits r p x) = [] := by
  apply filesFor_eq_nil
  intro v hv _ hkey
  rcases visits_shape r p x v hv with h | ⟨_, _, h⟩
  · rw [hkey] at h
    apply hxy
    apply prefix_snoc_unique (r :: p) k
    · simpa using h
    · simpa using hk
  · rw [hkey] at h
    rw [h] at hk
    exact not_prefix_snoc (r :: p) _ (by simpa using hk)

theorem filesFor_otherIn (r : Str) (p : Path) (x : Node) (xs : List Node)
    (hx : x.Name ∉ xs.map Node.Name) (k : Key)
    (hk : (r :: (p ++ [x.Name])) <+: k) : filesFor k (visitsIn r p xs) = [] := by
  apply filesFor_eq_nil
  intro v hv _ hkey
  rcases visitsIn_shape r p xs v hv with ⟨y, hy, h⟩ | ⟨_, h⟩
  · rw [hkey] at h
    apply hx
    have hxy : x.Name = y.Name := by
      apply prefix_snoc_unique (r :: p) k
      · simpa using hk
      · simpa using h
    exact hxy ▸ List.mem_map_of_mem _ hy
  · rw [hkey] at h
    rw [h] at hk
    exact not_prefix_snoc (r :: p) _ (by simpa using hk)

mutual
theorem visits_summary (r : Str) (p : Path) :
    ∀ (x : Node), distinctNames x = true →
      (dirKeys (visits r p x)).map (keySummary (visits r p x)) =
        (visibleDirs x).map dirSummary
  | .file n, _ => by
    cases h : isHidden n <;> simp [visits, h, dirKeys, visibleDirs]
  | .dir n e es, hd => by
    cases h : isHidden n with
    | true => simp [visits, h, dirKeys, visibleDirs]
    | false =>
      obtain ⟨hnd, hds⟩ := (distinctNames_dir n e es).mp hd
      have ih := visitsIn_summary r (p ++ [n]) es hds hnd
      have hk : dirKeys (visits r p (.dir n e es)) =
          (r :: (p ++ [n])) :: dirKeys (visitsIn r (p ++ [n]) es) := by
        simp [visits, h, dirKeys, List.filterMap_cons]
      have hv : visits r p (.dir n e es) =
          Visit.dir (r :: (p ++ [n])) :: visitsIn r (p ++ [n]) es := by
        simp [visits, h]
      rw [hk, hv]
      simp only [visibleDirs, h, Bool.false_eq_true, if_false, List.map_cons]
      congr 1
      · simp only [keySummary, dirSummary, filesFor_dir_cons, Base_snoc, ih.2, Node.Name,
          visibleFiles]
      · rw [← ih.1]
        apply List.map_congr_left
        intro k _
        simp only [keySummary, filesFor_dir_cons]
theorem visitsIn_summary (r : Str) (p : Path) :
    ∀ (es : List Node), distinctNamesIn es = true → (es.map Node.Name).Nodup →
      (dirKeys (visitsIn r p es)).map (keySummary (visitsIn r p es)) =
        (visibleDirsIn es).map dirSummary ∧
      filesFor (r :: p) (visitsIn r p es) =
        ((es.filter Node.isVisibleFile).map Node.Name).map cleanName
  | [], _, _ => by simp [visitsIn, dirKeys, filesFor, visibleDirsIn]
  | x :: xs, hd, hnd => by
    obtain ⟨hdx, hdxs⟩ := (distinctNamesIn_cons x xs).mp hd
    have hnd2 : x.Name ∉ xs.map Node.Name ∧ (xs.map Node.Name).Nodup := by
      simpa using hnd
    have ih1 := visits_summary r p x hdx
    have ih2 := visitsIn_summary r p xs hdxs hnd2.2
    constructor
    · rw [visitsIn, dirKeys_append, List.map_append, visibleDirsIn, List.map_append,
        ← ih1, ← ih2.1]
      congr 1
      · apply List.map_congr_left
        intro k hk
        have hpre := dirKey_under r p x k hk
        simp only [keySummary, filesFor_append, filesFor_otherIn r p x xs hnd2.1 k hpre,
          List.append_nil]
      · apply List.map_congr_left
        intro k hk
        obtain ⟨y, hy, hpre⟩ := dirKeyIn_under r p xs k hk
        have hxy : x.Name ≠ y.Name := fun e => hnd2.1 (e ▸ List.mem_map_of_mem _ hy)
        simp only [keySummary, filesFor_append, filesFor_other r p x y hxy k hpre,
          List.nil_append]
    · rw [visitsIn, filesFor_append, ih2.2]
      cases x with
      | file n =>
        cases h : isHidden n <;>
          simp [visits, h, filesFor, List.filter_cons, Node.isVisibleFile, Node.IsDir,
            Node.Name]
      | dir n e es =>
        have hnil : filesFor (r :: p) (visits r p (.dir n e es)) = [] := by
          apply filesFor_eq_nil
          intro v hv _ hkey
          rcases visits_shape r p _ v hv with h | ⟨h, _⟩
          · rw [hkey] at h
            exact not_prefix_snoc (r :: p) _ (by simpa using h)
          · simp [Node.IsDir] at h
        simp [hnil, List.filter_cons, Node.isVisibleFile, Node.IsDir]
end

theorem visitsRoot_summary (n : Str) (e : Option IOError) (es : List Node)
    (hv : isHidden n = false) (hd : distinctNames (.dir n e es) = true) :
    (dirKeys (visitsRoot (.dir n e es))).map (keySummary (visitsRoot (.dir n e es))) =
      (visibleDirs (.dir n e es)).map dirSummary := by
  obtain ⟨hnd, hds⟩ := (distinctNames_dir n e es).mp hd
  have ih := visitsIn_summary n [] es hds hnd
  have hk : dirKeys (visitsRoot (.dir n e es)) = [n] :: dirKeys (visitsIn n [] es) := by
    simp [visitsRoot, hv, dirKeys, List.filterMap_cons]
  have hvs : visitsRoot (.dir n e es) = Visit.dir [n] :: visitsIn n [] es := by
    simp [visitsRoot, hv]
  rw [hk, hvs]
  simp only [visibleDirs, hv, Bool.false_eq_true, if_false, List.map_cons]
  congr 1
  · simp only [keySummary, dirSummary, filesFor_dir_cons, ih.2, Node.Name, visibleFiles]
    simp [Base]
  · rw [← ih.1]
    apply List.map_congr_left
    intro k _
    simp only [keySummary, filesFor_dir_cons]

/-! ## Sorted listings -/

theorem ReadDirs_eq_map (es : List Node) : ReadDirs es = es.map ReadDir := by
  induction es with
  | nil => rfl
  | cons x xs ih => simp [ReadDirs, ih]

theorem ReadDirs_names (es : List Node) : (ReadDirs es).map Node.Name = es.map Node.Name := by
  rw [ReadDirs_eq_map, List.map_map]
  apply List.map_congr_left
  intro x _
  exact ReadDir_Name x

mutual
theorem distinctNames_ReadDir :
    ∀ (x : Node), distinctNames x = true → distinctNames (ReadDir x) = true
  | .file n, _ => by simp [ReadDir, distinctNames]
  | .dir n e es, hd => by
    obtain ⟨hnd, hds⟩ := (distinctNames_dir n e es).mp hd
    have hperm := List.perm_insertionSort byName (ReadDirs es)
    rw [ReadDir, distinctNames_dir]
    constructor
    · rw [(hperm.map Node.Name).nodup_iff, ReadDirs_names]
      exact hnd
    · rw [distinctNamesIn_iff]
      intro x hx
      exact (distinctNamesIn_iff _).mp (distinctNamesIn_ReadDirs es hds) x (hperm.mem_iff.mp hx)
theorem distinctNamesIn_ReadDirs :
    ∀ (es : List Node), distinctNamesIn es = true → distinctNamesIn (ReadDirs es) = true
  | [], _ => by simp [ReadDirs, distinctNamesIn]
  | x :: xs, hd => by
    obtain ⟨hdx, hdxs⟩ := (distinctNamesIn_cons x xs).mp hd
    rw [ReadDirs, distinctNamesIn_cons]
    exact ⟨distinctNames_ReadDir x hdx, distinctNamesIn_ReadDirs xs hdxs⟩
end

theorem strLE_total : ∀ (a b : Str), strLE a b = true ∨ strLE b a = true
  | [], _ => Or.inl (by simp [strLE])
  | _ :: _, [] => Or.inr (by simp [strLE])
  | a :: s, b :: t => by
    rcases Nat.lt_trichotomy a.toNat b.toNat with h | h | h
    · left; simp [strLE, h]
    · rcases strLE_total s t with ih | ih
      · left; simp [strLE, h, ih]
      · right; simp [strLE, h, ih]
    · right; simp [strLE, h]

theorem strLE_trans : ∀ (a b c : Str), strLE a b = true → strLE b c = true → strLE a c = true
  | [], _, _, _, _ => by simp [strLE]
  | _ :: _, [], _, h, _ => by simp [strLE] at h
  | _ :: _, _ :: _, [], _, h => by simp [strLE] at h
  | a :: s, b :: t, c :: u, h1, h2 => by
    simp only [strLE] at h1 h2 ⊢
    by_cases hab : a.toNat < b.toNat
    · by_cases hbc : b.toNat < c.toNat
      · have : a.toNat < c.toNat := by omega
        simp [this]
      · by_cases hcb : c.toNat < b.toNat
        · simp [hbc, hcb] at h2
        · have : a.toNat < c.toNat := by omega
          simp [this]
    · by_cases hba : b.toNat < a.toNat
      · simp [hab, hba] at h1
      · simp only [hab, hba, if_false] at h1
        by_cases hbc : b.toNat < c.toNat
        · have : a.toNat < c.toNat := by omega
          simp [this]
        · by_cases hcb : c.toNat < b.toNat
          · simp [hbc, hcb] at h2
          · simp only [hbc, hcb, if_false] at h2
            have h3 : ¬ a.toNat < c.toNat := by omega
            have h4 : ¬ c.toNat < a.toNat := by omega
            simp only [h3, h4, if_false]
            exact strLE_trans s t u h1 h2

theorem byName_total : IsTotal Node byName := ⟨fun a b => strLE_total a.Name b.Name⟩

theorem byName_trans : IsTrans Node byName :=
  ⟨fun a b c h1 h2 => strLE_trans a.Name b.Name c.Name h1 h2⟩

theorem sorted_ReadDirs (l : List Node) : (l.insertionSort byName).Sorted byName := by
  haveI := byName_total
  haveI := byName_trans
  exact List.sorted_insertionSort byName l

theorem orderedInsert_of_all (a : Node) (l : List Node) (h : ∀ c ∈ l, byName a c) :
    l.orderedInsert byName a = a :: l := by
  cases l with
  | nil => rfl
  | cons b l => simp [List.orderedInsert, h b (List.mem_cons_self _ _)]

theorem filter_orderedInsert_neg (q : Node → Bool) (a : Node) (l : List Node)
    (ha : q a = false) : (l.orderedInsert byName a).filter q = l.filter q := by
  induction l with
  | nil => simp [ha]
  | cons b l ih =>
    by_cases hab : byName a b
    · simp [List.orderedInsert, hab, List.filter_cons, ha]
    · simp [List.orderedInsert, hab, List.filter_cons, ih]

theorem filter_orderedInsert_pos (q : Node → Bool) (a : Node) (l : List Node)
    (ha : q a = true) (hs : l.Sorted byName) :
    (l.orderedInsert byName a).filter q = (l.filter q).orderedInsert byName a := by
  induction l with
  | nil => simp [ha]
  | cons b l ih =>
    have hs2 := List.sorted_cons.mp hs
    by_cases hab : byName a b
    · have hall : ∀ c ∈ (b :: l).filter q, byName a c := by
        intro c hc
        rcases List.mem_cons.mp (List.mem_of_mem_filter hc) with e | m
        · exact e ▸ hab
        · exact strLE_trans _ _ _ hab (hs2.1 c m)
      rw [orderedInsert_of_all a _ hall]
      simp [List.orderedInsert, hab, List.filter_cons, ha]
    · cases hb : q b with
      | true =>
        simp [List.orderedInsert, hab, List.filter_cons, hb, ih hs2.2]
      | false =>
        simp [List.orderedInsert, hab, List.filter_cons, hb, ih hs2.2]

theorem filter_insertionSort (q : Node → Bool) (l : List Node) :
    (l.insertionSort byName).filter q = (l.filter q).insertionSort byName := by
  induction l with
  | nil => rfl
  | cons a l ih =>
    cases ha : q a with
    | true =>
      rw [List.insertionSort_cons_eq_take_drop]
      rw [← List.orderedInsert_eq_take_drop]
      rw [filter_orderedInsert_pos q a _ ha (sorted_ReadDirs l), ih]
      simp [List.filter_cons, ha]
    | false =>
      rw [List.insertionSort_cons_eq_take_drop]
      rw [← List.orderedInsert_eq_take_drop]
      rw [filter_orderedInsert_neg q a _ ha, ih]
      simp [List.filter_cons, ha]

/-! ## Deleting the hidden entries -/

theorem prune_Name (x : Node) : (prune x).Name = x.Name := by
  cases x <;> simp [prune, Node.Name]

theorem pruneIn_eq (es : List Node) :
    pruneIn es = (es.filter (fun x => !isHidden x.Name)).map prune := by
  induction es with
  | nil => rfl
  | cons x xs ih =>
    cases h : isHidden x.Name <;> simp [pruneIn, List.filter_cons, h, ih]

theorem sort_pruneIn (l : List Node) :
    (pruneIn l).insertionSort byName = pruneIn (l.insertionSort byName) := by
  rw [pruneIn_eq, pruneIn_eq, filter_insertionSort]
  symm
  apply List.map_insertionSort
  intro a _ b _
  simp only [byName, prune_Name]

mutual
theorem ReadDir_prune : ∀ (x : Node), ReadDir (prune x) = prune (ReadDir x)
  | .file n => by simp [prune, ReadDir]
  | .dir n e es => by
    simp only [prune, ReadDir, ReadDirs_pruneIn es, sort_pruneIn]
theorem ReadDirs_pruneIn : ∀ (es : List Node), ReadDirs (pruneIn es) = pruneIn (ReadDirs es)
  | [] => by simp [pruneIn, ReadDirs]
  | x :: xs => by
    cases h : isHidden x.Name with
    | true => simp [pruneIn, ReadDirs, h, ReadDir_Name, ReadDirs_pruneIn xs]
    | false =>
      simp [pruneIn, ReadDirs, h, ReadDir_Name, ReadDirs_pruneIn xs, ReadDir_prune x]
end

theorem visits_hidden (r : Str) (p : Path) (x : Node) (h : isHidden x.Name = true) :
    visits r p x = [] := by
  cases x <;> simp_all [visits, Node.Name]

theorem firstError_hidden (x : Node) (h : isHidden x.Name = true) : firstError x = none := by
  cases x <;> simp_all [firstError, Node.Name]

mutual
theorem visits_prune (r : Str) (p : Path) :
    ∀ (x : Node), visits r p (prune x) = visits r p x
  | .file n => by simp [prune]
  | .dir n e es => by
    simp only [prune, visits, visitsIn_pruneIn r (p ++ [n]) es]
theorem visitsIn_pruneIn (r : Str) (p : Path) :
    ∀ (es : List Node), visitsIn r p (pruneIn es) = visitsIn r p es
  | [] => by simp [pruneIn]
  | x :: xs => by
    cases h : isHidden x.Name with
    | true => simp [pruneIn, visitsIn, h, visits_hidden r p x h, visitsIn_pruneIn r p xs]
    | false => simp [pruneIn, visitsIn, h, visits_prune r p x, visitsIn_pruneIn r p xs]
end

mutual
theorem firstError_prune : ∀ (x : Node), firstError (prune x) = firstError x
  | .file n => by simp [prune]
  | .dir n e es => by
    simp only [prune, firstError, firstErrorIn_pruneIn es]
theorem firstErrorIn_pruneIn : ∀ (es : List Node), firstErrorIn (pruneIn es) = firstErrorIn es
  | [] => by simp [pruneIn]
  | x :: xs => by
    cases h : isHidden x.Name with
    | true =>
      simp [pruneIn, firstErrorIn, h, firstError_hidden x h, firstErrorIn_pruneIn xs]
    | false =>
      simp [pruneIn, firstErrorIn, h, firstError_prune x, firstErrorIn_pruneIn xs]
end

theorem visitsRoot_prune (x : Node) : visitsRoot (prune x) = visitsRoot x := by
  cases x with
  | file n => simp [prune]
  | dir n e es => simp only [prune, visitsRoot, visitsIn_pruneIn n [] es]

theorem walkDirectory_prune (root : Node) :
    walkDirectory (.ok (prune root)) = walkDirectory (.ok root) := by
  rw [walkDirectory_ok, walkDirectory_ok, ReadDir_prune, firstError_prune, visitsRoot_prune]

/-! ## The result of a successful walk -/

theorem filter_map_summary {α β : Type} (f : α → Str × List Str) (g : β → Str × List Str)
    (l : List α) (m : List β) (h : l.map f = m.map g) :
    (l.filter (fun a => decide ((f a).2 ≠ []))).map
        (fun a => ({ name := cleanDirName (f a).1, files := (f a).2 } : dirEntry)) =
      (m.filter (fun b => decide ((g b).2 ≠ []))).map
        (fun b => ({ name := cleanDirName (g b).1, files := (g b).2 } : dirEntry)) := by
  have key : ∀ {γ : Type} (u : γ → Str × List Str) (t : List γ),
      (t.filter (fun a => decide ((u a).2 ≠ []))).map
          (fun a => ({ name := cleanDirName (u a).1, files := (u a).2 } : dirEntry)) =
        ((t.map u).filter (fun q => decide (q.2 ≠ []))).map
          (fun q => ({ name := cleanDirName q.1, files := q.2 } : dirEntry)) := by
    intro γ u t
    induction t with
    | nil => rfl
    | cons a t ih =>
      by_cases ha : (u a).2 = []
      · simpa [List.filter_cons, ha] using ih
      · simpa [List.filter_cons, ha] using ih
  rw [key f l, key g m, h]

/-- The walk of a well-formed tree below a non-hidden root directory, when no
directory read fails: the groups are those of the specification. -/
theorem walkDirectory_groups (root : Node) (hdir : root.IsDir = true)
    (hvis : isHidden root.Name = false) (hok : firstError (ReadDir root) = none)
    (hwf : distinctNames root = true) :
    walkDirectory (.ok root) = (specGroups root, none) := by
  rw [walkDirectory_ok, hok]
  have hwf2 := distinctNames_ReadDir root hwf
  have hvis2 : isHidden (ReadDir root).Name = false := by rw [ReadDir_Name]; exact hvis
  have hshape : ∃ n e es, ReadDir root = .dir n e es := by
    cases root with
    | file n => simp [Node.IsDir] at hdir
    | dir n e es => exact ⟨n, e, _, by rw [ReadDir]⟩
  obtain ⟨n, e, es, hR⟩ := hshape
  rw [specGroups, hR]
  rw [hR] at hwf2 hvis2
  have hvis3 : isHidden n = false := hvis2
  have hwt := visitsRoot_wellTracked n e es hvis3 hwf2
  have hsum := visitsRoot_summary n e es hvis3 hwf2
  obtain ⟨hord, hfiles⟩ := fold_visits_init _ hwt
  show (buildEntries _, none) = _
  rw [buildEntries_eq, hord]
  congr 1
  have := filter_map_summary (keySummary (visitsRoot (.dir n e es))) dirSummary _ _ hsum
  simp only [keySummary, dirSummary] at this
  simp only [hfiles, groupOf]
  rw [this]
  congr 1
  apply List.filter_congr
  intro x _
  simp

theorem TrimSpace_within (s : Str) : TrimSpace s <:+: s := by
  have hpre : TrimSpace s <+: s.dropWhile IsSpace := by
    rw [TrimSpace, ← List.reverse_suffix, List.reverse_reverse]
    exact List.dropWhile_suffix _
  exact hpre.isInfix.trans (List.dropWhile_suffix IsSpace).isInfix

/-! ## Claims on the name cleaner and the renderer -/

/-- C3: for every sequence of groups, `renderHTML` returns exactly the
concatenation, in group order and with nothing between or after the groups, of
the blocks `<h3>` escaped name `</h3>\n<ul>\n`, one line (space, tab, `<li>`
escaped file `</li>\n`) per file, `</ul>\n`; appending a last group appends its
block and nothing else. -/
theorem renderHTML_exact (entries : List dirEntry) :
    renderHTML entries = entries.flatMap groupBlock ∧
      ∀ g, renderHTML (entries ++ [g]) = renderHTML entries ++ groupBlock g := by
  refine ⟨renderHTML_eq entries, fun g => ?_⟩
  rw [renderHTML_eq, renderHTML_eq]
  simp [List.flatMap_append]

/-- C4 as stated fails: for the string `a.b/c` the specification's rule removes
the text after the last `.` and gives `a`, while `cleanName` returns the string
unchanged, because `filepath.Ext` only looks at the final path element. -/
theorem cleanName_spec_fails_on_separator :
    cleanName "a.b/c".toList = "a.b/c".toList ∧
      cleanNameSpec "a.b/c".toList = "a".toList ∧
      cleanName "a.b/c".toList ≠ cleanNameSpec "a.b/c".toList := by
  decide

/-- C4, amended: for every string in which no `/` follows the last `.` (in
particular every name without `/`, the empty string included), `cleanName`
equals: remove the final extension, then replace every `_` and `-` by a space,
then trim white space. -/
theorem cleanName_spec (name : Str) (h : '.' ∈ name → '/' ∉ afterLastDot name) :
    cleanName name = cleanNameSpec name := by
  rw [cleanName_eq, cleanNameSpec]
  congr 2
  by_cases hd : '.' ∈ name
  · obtain ⟨r1, r2, e, n, t, dw⟩ := split_at_dot name.reverse (List.mem_reverse.mpr hd)
    have hs : '/' ∉ r1 := by
      have h1 := h hd
      rw [afterLastDot, t] at h1
      exact fun m => h1 (List.mem_reverse.mpr m)
    rw [strip_eq_of_split name r1 r2 e n hs, stripFinalExtension, if_pos hd, dw]
    rfl
  · have hE : Ext name = [] := extFrom_no_dot _ _ (fun m => hd (List.mem_reverse.mp m))
    simp [hE, stripFinalExtension, hd]

/-- Instance of `cleanName_spec` at `report-final.pdf`, which gives
`report final`. -/
theorem cleanName_spec_witness :
    ('.' ∈ "report-final.pdf".toList → '/' ∉ afterLastDot "report-final.pdf".toList) ∧
      cleanName "report-final.pdf".toList = cleanNameSpec "report-final.pdf".toList ∧
      cleanNameSpec "report-final.pdf".toList = "report final".toList :=
  ⟨by decide, cleanName_spec "report-final.pdf".toList (by decide), by decide⟩

/-- C5: `renderHTML` emits `EscapeString` of the directory name and of every
file name; for every string `s` the escaped form contains none of `<`, `>`,
`"`, `'`, every `&` in it starts one of the five entities, a character other
than the five is emitted unchanged in its place and each of the five as an
entity; the file `<a&b>.txt` is listed as `<li>&lt;a&amp;b&gt;</li>`. -/
theorem escaping_covers_specials :
    (∀ g : dirEntry, renderHTML [g] = groupBlock g) ∧
    (∀ s : Str, ∀ c ∈ EscapeString s, c ≠ '<' ∧ c ≠ '>' ∧ c ≠ '"' ∧ c ≠ '\'') ∧
    (∀ (s : Str) (i : Nat), (EscapeString s)[i]? = some '&' →
      ∃ e ∈ entities, e <+: (EscapeString s).drop i) ∧
    (∀ (s t : Str) (c : Char), isSpecial c = false →
      EscapeString (s ++ c :: t) = EscapeString s ++ c :: EscapeString t) ∧
    (∀ (s t : Str) (c : Char), isSpecial c = true →
      ∃ e ∈ entities, EscapeString (s ++ c :: t) = EscapeString s ++ e ++ EscapeString t) ∧
    cleanName "<a&b>.txt".toList = "<a&b>".toList ∧
    renderHTML (walkDirectory (.ok (mkDir "d" [mkFile "<a&b>.txt"]))).1 =
      "<h3>d</h3>\n<ul>\n \t<li>&lt;a&amp;b&gt;</li>\n</ul>\n".toList := by
  refine ⟨fun g => ?_, fun s c hc => ?_, amp_starts_entity, fun s t c hc => ?_,
    fun s t c hc => ?_, by decide, by decide⟩
  · rw [renderHTML_eq]; simp
  · simp only [EscapeString, List.mem_flatMap] at hc
    obtain ⟨a, _, hca⟩ := hc
    cases hsp : isSpecial a with
    | true =>
      have hent := escapeChar_special a hsp
      revert hca
      generalize escapeChar a = e at hent
      revert c
      revert e
      decide
    | false =>
      rw [escapeChar_plain a hsp] at hca
      have hca : c = a := by simpa using hca
      subst hca
      simp only [isSpecial, Bool.or_eq_false_iff, decide_eq_false_iff_not] at hsp
      obtain ⟨⟨⟨⟨_, h2⟩, h3⟩, h4⟩, h5⟩ := hsp
      exact ⟨h2, h3, h4, h5⟩
  · simp [EscapeString, List.flatMap_append, List.flatMap_cons, escapeChar_plain c hc]
  · exact ⟨escapeChar c, escapeChar_special c hc, by
      simp [EscapeString, List.flatMap_append, List.flatMap_cons]⟩

/-- C9 as stated fails: the file name `a.b.b` has the extension `.b` (the
suffix beginning at its last `.`), and its cleaned name `a.b` still contains
`.b`. -/
theorem cleanName_keeps_earlier_extension :
    Ext "a.b.b".toList = ".b".toList ∧
      '.' :: afterLastDot "a.b.b".toList = ".b".toList ∧
      cleanName "a.b.b".toList = "a.b".toList ∧
      Ext "a.b.b".toList <:+: cleanName "a.b.b".toList := by
  decide

/-- C9, amended: for every file name with a recognizable extension
(`filepath.Ext` non-empty) whose extension does not occur in the rest of the
name once `_` and `-` there have been replaced by spaces, the cleaned name does
not contain the stripped extension as a substring. -/
theorem cleanName_drops_extension (name : Str) (hext : Ext name ≠ [])
    (hstem : ¬ (Ext name <:+: spaceOut (TrimSuffix name (Ext name)))) :
    ¬ (Ext name <:+: cleanName name) := by
  intro hin
  apply hstem
  rw [cleanName_eq, if_pos hext] at hin
  exact hin.trans (TrimSpace_within _)

/-- Instance of `cleanName_drops_extension` at `archive.tar.gz`, a name with
two dots: the cleaned name `archive.tar` does not contain `.gz`. -/
theorem cleanName_drops_extension_witness :
    Ext "archive.tar.gz".toList ≠ [] ∧
      ¬ (Ext "archive.tar.gz".toList <:+:
        spaceOut (TrimSuffix "archive.tar.gz".toList (Ext "archive.tar.gz".toList))) ∧
      cleanName "archive.tar.gz".toList = "archive.tar".toList ∧
      ¬ (Ext "archive.tar.gz".toList <:+: cleanName "archive.tar.gz".toList) :=
  ⟨by decide, by decide, by decide,
    cleanName_drops_extension "archive.tar.gz".toList (by decide) (by decide)⟩

/-- C10: for every file name, with or without an extension, `cleanName`
contains neither `_` nor `-`, and for every directory name the same holds for
`cleanDirName`. -/
theorem cleaned_has_no_underscore_or_hyphen (name : Str) :
    '_' ∉ cleanName name ∧ '-' ∉ cleanName name ∧
      '_' ∉ cleanDirName name ∧ '-' ∉ cleanDirName name := by
  rw [cleanName_eq, cleanDirName_eq]
  exact ⟨fun h => (not_mem_spaceOut _).1 (TrimSpace_subset _ _ h),
    fun h => (not_mem_spaceOut _).2 (TrimSpace_subset _ _ h),
    fun h => (not_mem_spaceOut _).1 (TrimSpace_subset _ _ h),
    fun h => (not_mem_spaceOut _).2 (TrimSpace_subset _ _ h)⟩

mutual
theorem visibleDirs_visible : ∀ (t x : Node), x ∈ visibleDirs t → isHidden x.Name = false
  | .file n, x, hx => by simp [visibleDirs] at hx
  | .dir n e es, x, hx => by
    cases h : isHidden n with
    | true => simp [visibleDirs, h] at hx
    | false =>
      simp only [visibleDirs, h, Bool.false_eq_true, if_false, List.mem_cons] at hx
      rcases hx with hx | hx
      · rw [hx]; exact h
      · exact visibleDirsIn_visible es x hx
theorem visibleDirsIn_visible :
    ∀ (es : List Node) (x : Node), x ∈ visibleDirsIn es → isHidden x.Name = false
  | [], x, hx => by simp [visibleDirsIn] at hx
  | y :: ys, x, hx => by
    simp only [visibleDirsIn, List.mem_append] at hx
    rcases hx with hx | hx
    · exact visibleDirs_visible y x hx
    · exact visibleDirsIn_visible ys x hx
end

/-! ## Claims on the tree walker -/

/-- C1: for every directory tree (names within one directory pairwise distinct)
whose root is a non-hidden directory and whose traversal succeeds,
`walkDirectory` returns no error and exactly the groups of the non-hidden
directories reachable through non-hidden directories, in pre-order, that have a
non-hidden direct file: each named by `cleanDirName` of the directory's own
name and holding `cleanName` of its non-hidden direct files in walk order; so
every group stems from one kept directory and there is one group per kept
directory. -/
theorem walkDirectory_spec (root : Node) (hdir : root.IsDir = true)
    (hvis : isHidden root.Name = false) (hok : firstError (ReadDir root) = none)
    (hwf : distinctNames root = true) :
    walkDirectory (.ok root) =
      (((visibleDirs (ReadDir root)).filter (fun dir => visibleFiles dir ≠ [])).map
        (fun dir => { name := cleanDirName dir.Name,
                      files := (visibleFiles dir).map cleanName }), none) ∧
    (∀ g ∈ (walkDirectory (.ok root)).1, ∃ dir ∈ visibleDirs (ReadDir root),
      visibleFiles dir ≠ [] ∧ g = groupOf dir) ∧
    (walkDirectory (.ok root)).1.length =
      ((visibleDirs (ReadDir root)).filter (fun dir => visibleFiles dir ≠ [])).length := by
  have h := walkDirectory_groups root hdir hvis hok hwf
  refine ⟨h, ?_, ?_⟩
  · intro g hg
    rw [h] at hg
    simp only [specGroups, List.mem_map, List.mem_filter, decide_eq_true_eq] at hg
    obtain ⟨dir, ⟨hmem, hne⟩, hgd⟩ := hg
    exact ⟨dir, hmem, hne, hgd.symm⟩
  · rw [h]
    simp [specGroups]

/-- Instance of `walkDirectory_spec` at the sample tree `docsTree`: three
groups, the root first. -/
theorem walkDirectory_spec_witness :
    docsTree.IsDir = true ∧ isHidden docsTree.Name = false ∧
      firstError (ReadDir docsTree) = none ∧ distinctNames docsTree = true ∧
      walkDirectory (.ok docsTree) =
        ([⟨"docs".toList, ["b 1".toList]⟩, ⟨"a dir".toList, ["y".toList]⟩,
          ⟨"in".toList, ["z".toList]⟩], none) :=
  ⟨by decide, by decide, by decide, by decide,
    ((walkDirectory_spec docsTree (by decide) (by decide) (by decide) (by decide)).1).trans
      (by decide)⟩

/-- C2: hidden entries never contribute: for every directory tree,
`walkDirectory` returns the same result as on the tree from which every file
and every directory whose name starts with `.` has been deleted, a directory
with its whole subtree; a visible file under a hidden subdirectory of a
visible directory is absent from the output. -/
theorem hidden_entries_do_not_contribute :
    (∀ root : Node, walkDirectory (.ok root) = walkDirectory (.ok (prune root))) ∧
    (∀ root : Node, ∀ x ∈ visibleDirs (prune root), isHidden x.Name = false) ∧
    prune (mkDir "r" [mkDir "v" [mkDir ".h" [mkFile "x.txt"], mkFile "y.txt"], mkFile ".z"]) =
      mkDir "r" [mkDir "v" [mkFile "y.txt"]] ∧
    walkDirectory (.ok (mkDir "r" [mkDir "v" [mkDir ".h" [mkFile "x.txt"], mkFile "y.txt"],
        mkFile ".z"])) = ([⟨"v".toList, ["y".toList]⟩], none) := by
  refine ⟨fun root => (walkDirectory_prune root).symm, ?_, by rfl, by decide⟩
  intro root x hx
  exact visibleDirs_visible _ x hx

/-- C6: every group `walkDirectory` returns has a non-empty file list, for
every tree and every outcome of the walk; in a well-formed tree walked without
error the groups are as many as the non-hidden reachable directories that have
a non-hidden direct file, so a directory without one produces no group even
when a subdirectory does (here `top` and `empty` beside `sub`). -/
theorem groups_have_files :
    (∀ root : Lstat, ∀ g ∈ (walkDirectory root).1, g.files ≠ []) ∧
    (∀ root : Node, root.IsDir = true → isHidden root.Name = false →
      firstError (ReadDir root) = none → distinctNames root = true →
      (walkDirectory (.ok root)).1.length =
        ((visibleDirs (ReadDir root)).filter (fun dir => visibleFiles dir ≠ [])).length) ∧
    walkDirectory (.ok (mkDir "top" [mkFile ".hidden", mkDir "empty" [],
        mkDir "sub" [mkFile "a.txt"]])) = ([⟨"sub".toList, ["a".toList]⟩], none) ∧
    renderHTML (walkDirectory (.ok (mkDir "top" [mkFile ".hidden", mkDir "empty" [],
        mkDir "sub" [mkFile "a.txt"]]))).1 =
      "<h3>sub</h3>\n<ul>\n \t<li>a</li>\n</ul>\n".toList := by
  refine ⟨?_, ?_, by decide, by decide⟩
  · intro root g hg
    simp only [walkDirectory] at hg
    rcases hw : WalkDir root (walkFn (rootBase root)) walkState.init with ⟨st, e⟩
    rw [hw] at hg
    cases e with
    | some err => simp at hg
    | none =>
      simp only [buildEntries_eq, List.mem_map, List.mem_filter, decide_eq_true_eq] at hg
      obtain ⟨k, ⟨_, hne⟩, hgk⟩ := hg
      rw [← hgk]
      exact hne
  · intro root hdir hvis hok hwf
    rw [walkDirectory_groups root hdir hvis hok hwf]
    simp [specGroups]

/-- C7: on the root `r` whose enumeration returns subdirectory `b` (file `x`)
before subdirectory `a` (file `y`), `walkDirectory` returns the group for `a`
before the group for `b`, where the claim, like the comment on `walkDirectory`
("preserving filesystem order"), asks for the group for `b` first. -/
theorem enumeration_order_not_preserved :
    walkDirectory (.ok (mkDir "r" [mkDir "b" [mkFile "x"], mkDir "a" [mkFile "y"]])) =
      ([⟨"a".toList, ["y".toList]⟩, ⟨"b".toList, ["x".toList]⟩], none) := by
  decide

/-- C8: `walkDirectory` yields no partial results.  When the root cannot be
examined, or a visited non-hidden directory cannot be listed, it returns that
error and no groups, whatever was collected before; it returns without error
exactly when no such access fails; an unreadable hidden directory, which is
never entered, does not make the walk fail. -/
theorem walk_is_all_or_nothing :
    (∀ e : IOError, walkDirectory (.error e) = ([], some (.io e))) ∧
    (∀ (root : Node) (e : IOError), firstError (ReadDir root) = some e →
      walkDirectory (.ok root) = ([], some (.io e))) ∧
    (∀ root : Node, firstError (ReadDir root) = none → (walkDirectory (.ok root)).2 = none) ∧
    (∀ root : Lstat, (walkDirectory root).2 ≠ none → (walkDirectory root).1 = []) ∧
    (∀ (r n : Str) (e : IOError) (es : List Node), isHidden n = true →
      walkDirectory (.ok (.dir r none [.dir n (some e) es])) = ([], none)) ∧
    walkDirectory (.ok (mkDir "r" [mkFile "a.txt", .dir "sub".toList (some .EACCES) [],
        mkFile "z.txt"])) = ([], some (.io .EACCES)) := by
  refine ⟨walkDirectory_error, ?_, ?_, ?_, ?_, by decide⟩
  · intro root e he
    rw [walkDirectory_ok, he]
  · intro root he
    rw [walkDirectory_ok, he]
  · intro root hne
    simp only [walkDirectory] at hne ⊢
    rcases hw : WalkDir root (walkFn (rootBase root)) walkState.init with ⟨st, e⟩
    rw [hw] at hne
    cases e with
    | some err => rfl
    | none => exact absurd rfl hne
  · intro r n e es hn
    rw [← walkDirectory_prune, walkDirectory_ok]
    cases hr : isHidden r <;>
      simp [prune, pruneIn, Node.Name, hn, ReadDir, ReadDirs, firstError, firstErrorIn, hr,
        visitsRoot, visitsIn, walkState.visit, walkState.track, walkState.init, buildEntries]

/-! ## Further lemmas on the name cleaner and the renderer -/

theorem count_dropWhile (q : Char → Bool) (c : Char) (hc : q c = false) (l : Str) :
    (l.dropWhile q).count c = l.count c := by
  induction l with
  | nil => rfl
  | cons a l ih =>
    cases ha : q a with
    | true =>
      have hne : a ≠ c := by
        intro e
        rw [e, hc] at ha
        exact Bool.noConfusion ha
      rw [List.dropWhile_cons_of_pos ha, ih, List.count_cons_of_ne (Ne.symm hne)]
    | false => rw [List.dropWhile_cons_of_neg (by simp [ha])]

theorem count_TrimSpace (c : Char) (hc : IsSpace c = false) (s : Str) :
    (TrimSpace s).count c = s.count c := by
  rw [TrimSpace, List.count_reverse, count_dropWhile IsSpace c hc, List.count_reverse,
    count_dropWhile IsSpace c hc]

theorem count_dot_spaceOut (s : Str) : (spaceOut s).count '.' = s.count '.' := by
  induction s with
  | nil => rfl
  | cons a l ih =>
    have hcons : spaceOut (a :: l) = (if a = '_' ∨ a = '-' then ' ' else a) :: spaceOut l := rfl
    rw [hcons]
    by_cases h : a = '_' ∨ a = '-'
    · have hne : a ≠ '.' := by
        rcases h with h | h <;> rw [h] <;> decide
      rw [if_pos h, List.count_cons_of_ne (by decide), List.count_cons_of_ne (Ne.symm hne), ih]
    · rw [if_neg h, List.count_cons, List.count_cons, ih]

theorem spaceOut_id (s : Str) (h1 : '_' ∉ s) (h2 : '-' ∉ s) : spaceOut s = s := by
  induction s with
  | nil => rfl
  | cons a l ih =>
    have ha1 : a ≠ '_' := fun e => h1 (e ▸ List.mem_cons_self _ _)
    have ha2 : a ≠ '-' := fun e => h2 (e ▸ List.mem_cons_self _ _)
    have hcons : spaceOut (a :: l) = (if a = '_' ∨ a = '-' then ' ' else a) :: spaceOut l := rfl
    rw [hcons, if_neg (by simp [ha1, ha2]),
      ih (fun m => h1 (List.mem_cons_of_mem _ m)) (fun m => h2 (List.mem_cons_of_mem _ m))]

theorem dropWhile_id (q : Char → Bool) (l : Str)
    (h : ∀ c, l.head? = some c → q c = false) : l.dropWhile q = l := by
  cases l with
  | nil => rfl
  | cons a l => exact List.dropWhile_cons_of_neg (by simp [h a rfl])

theorem head_dropWhile (q : Char → Bool) (l : Str) :
    ∀ c, (l.dropWhile q).head? = some c → q c = false := by
  induction l with
  | nil => intro c h; simp at h
  | cons a l ih =>
    intro c h
    cases ha : q a with
    | true =>
      rw [List.dropWhile_cons_of_pos ha] at h
      exact ih c h
    | false =>
      rw [List.dropWhile_cons_of_neg (by simp [ha])] at h
      have : a = c := by simpa using h
      rw [← this]
      exact ha

theorem TrimSpace_id (s : Str) (hhead : ∀ c, s.head? = some c → IsSpace c = false)
    (hlast : ∀ c, s.getLast? = some c → IsSpace c = false) : TrimSpace s = s := by
  rw [TrimSpace, dropWhile_id IsSpace s hhead, dropWhile_id IsSpace s.reverse]
  · exact List.reverse_reverse s
  · intro c hc
    rw [List.head?_reverse] at hc
    exact hlast c hc

theorem TrimSpace_ends (s : Str) :
    (∀ c, (TrimSpace s).head? = some c → IsSpace c = false) ∧
    (∀ c, (TrimSpace s).getLast? = some c → IsSpace c = false) := by
  constructor
  · intro c hc
    have hpre : TrimSpace s <+: s.dropWhile IsSpace := by
      rw [TrimSpace, ← List.reverse_suffix, List.reverse_reverse]
      exact List.dropWhile_suffix _
    obtain ⟨t, ht⟩ := hpre
    apply head_dropWhile IsSpace s c
    rw [← ht]
    cases hT : TrimSpace s with
    | nil => rw [hT] at hc; simp at hc
    | cons a l =>
      rw [hT] at hc
      simpa using hc
  · intro c hc
    rw [TrimSpace, List.getLast?_reverse] at hc
    exact head_dropWhile IsSpace _ c hc

theorem TrimSpace_idem (s : Str) : TrimSpace (TrimSpace s) = TrimSpace s :=
  TrimSpace_id _ (TrimSpace_ends s).1 (TrimSpace_ends s).2

theorem EscapeString_no_angle (s : Str) : '<' ∉ EscapeString s ∧ '>' ∉ EscapeString s := by
  have key : ∀ c ∈ EscapeString s, c ≠ '<' ∧ c ≠ '>' := by
    intro c hc
    simp only [EscapeString, List.mem_flatMap] at hc
    obtain ⟨a, _, hca⟩ := hc
    cases hsp : isSpecial a with
    | true =>
      have hent := escapeChar_special a hsp
      revert hca
      generalize escapeChar a = e at hent
      revert c
      revert e
      decide
    | false =>
      rw [escapeChar_plain a hsp] at hca
      have hca : c = a := by simpa using hca
      subst hca
      simp only [isSpecial, Bool.or_eq_false_iff, decide_eq_false_iff_not] at hsp
      exact ⟨hsp.1.1.1.2, hsp.1.1.2⟩
  exact ⟨fun h => (key _ h).1 rfl, fun h => (key _ h).2 rfl⟩

theorem count_groupBlock (c : Char) (hc : c = '<' ∨ c = '>') (g : dirEntry) :
    (groupBlock g).count c = 4 + 2 * g.files.length := by
  have hE : ∀ s : Str, (EscapeString s).count c = 0 := by
    intro s
    apply List.count_eq_zero.mpr
    rcases hc with h | h <;> rw [h]
    · exact (EscapeString_no_angle s).1
    · exact (EscapeString_no_angle s).2
  have hitems : ∀ files : List Str,
      (files.flatMap (fun file =>
        [' ', '\t'] ++ "<li>".toList ++ EscapeString file ++ "</li>\n".toList)).count c =
        2 * files.length := by
    intro files
    induction files with
    | nil => rfl
    | cons f fs ih =>
      rw [List.flatMap_cons, List.count_append, ih]
      simp only [List.count_append, hE, List.length_cons]
      rcases hc with h | h <;> subst h <;>
        simp [String.toList, List.count_cons] <;> omega
  rw [groupBlock]
  simp only [List.count_append, hE, hitems]
  rcases hc with h | h <;> subst h <;>
    simp [String.toList, List.count_cons] <;> omega

theorem count_renderHTML (c : Char) (hc : c = '<' ∨ c = '>') (entries : List dirEntry) :
    (renderHTML entries).count c =
      4 * entries.length + 2 * (entries.map (fun g => g.files.length)).sum := by
  rw [renderHTML_eq]
  induction entries with
  | nil => rfl
  | cons g gs ih =>
    rw [List.flatMap_cons, List.count_append, ih, count_groupBlock c hc g]
    simp only [List.length_cons, List.map_cons, List.sum_cons]
    omega

theorem strip_eq_spec (name : Str) (h : '.' ∈ name → '/' ∉ afterLastDot name) :
    (if Ext name ≠ [] then TrimSuffix name (Ext name) else name) = stripFinalExtension name := by
  by_cases hd : '.' ∈ name
  · obtain ⟨r1, r2, e, n, t, dw⟩ := split_at_dot name.reverse (List.mem_reverse.mpr hd)
    have hs : '/' ∉ r1 := by
      have h1 := h hd
      rw [afterLastDot, t] at h1
      exact fun m => h1 (List.mem_reverse.mpr m)
    rw [strip_eq_of_split name r1 r2 e n hs, stripFinalExtension, if_pos hd, dw]
    rfl
  · have hE : Ext name = [] := extFrom_no_dot _ _ (fun m => hd (List.mem_reverse.mp m))
    simp [hE, stripFinalExtension, hd]

/-! ## Further claims on the name cleaner and the renderer -/

/-- C11: for every directory name, `cleanDirName` never strips an extension-like
suffix: it is exactly the white-space-trimmed result of replacing each `_` and
`-` of the whole name by a space, the number of `.` is unchanged, and a name
without `_`, `-` and leading or trailing white space, such as `v1.2`, is
returned unchanged. -/
theorem cleanDirName_keeps_extension :
    (∀ name : Str, cleanDirName name = TrimSpace (spaceOut name)) ∧
    (∀ name : Str, (cleanDirName name).count '.' = name.count '.') ∧
    (∀ name : Str, '_' ∉ name → '-' ∉ name →
      (∀ c, name.head? = some c → IsSpace c = false) →
      (∀ c, name.getLast? = some c → IsSpace c = false) → cleanDirName name = name) ∧
    cleanDirName "v1.2".toList = "v1.2".toList ∧
    cleanDirName "my_lib-v1.2".toList = "my lib v1.2".toList := by
  refine ⟨cleanDirName_eq, fun name => ?_, fun name h1 h2 h3 h4 => ?_, by decide, by decide⟩
  · rw [cleanDirName_eq, count_TrimSpace '.' (by decide), count_dot_spaceOut]
  · rw [cleanDirName_eq, spaceOut_id name h1 h2, TrimSpace_id name h3 h4]

/-- C12 as stated fails: for the name `a.b/c` the final extension, the text
from the last `.` on, is `.b/c`; `cleanDirName` of the name without it is `a`,
while `cleanName` returns `a.b/c`, because `filepath.Ext` only looks at the
final path element. -/
theorem cleanName_differs_on_separator :
    stripFinalExtension "a.b/c".toList = "a".toList ∧
      cleanDirName (stripFinalExtension "a.b/c".toList) = "a".toList ∧
      cleanName "a.b/c".toList = "a.b/c".toList ∧
      cleanName "a.b/c".toList ≠ cleanDirName (stripFinalExtension "a.b/c".toList) := by
  decide

/-- C12, amended: the file rule and the directory rule differ only by extension
stripping: for every name in which no `/` follows the last `.`, `cleanName` of
the name is `cleanDirName` of the name with its final extension (the last `.`
and the text after it) removed, and so, when the name contains no `.`,
`cleanName` and `cleanDirName` agree on it. -/
theorem cleanName_is_cleanDirName_of_stem (name : Str)
    (h : '.' ∈ name → '/' ∉ afterLastDot name) :
    cleanName name = cleanDirName (stripFinalExtension name) ∧
      ('.' ∉ name → cleanName name = cleanDirName name) := by
  have h1 : cleanName name = cleanDirName (stripFinalExtension name) := by
    rw [cleanName_eq, cleanDirName_eq, strip_eq_spec name h]
  refine ⟨h1, fun hd => ?_⟩
  rw [h1, stripFinalExtension, if_neg hd]

/-- Instance of `cleanName_is_cleanDirName_of_stem` at `my_notes.v2.txt`, whose
final extension is `.txt`. -/
theorem cleanName_is_cleanDirName_of_stem_witness :
    ('.' ∈ "my_notes.v2.txt".toList → '/' ∉ afterLastDot "my_notes.v2.txt".toList) ∧
      stripFinalExtension "my_notes.v2.txt".toList = "my_notes.v2".toList ∧
      cleanName "my_notes.v2.txt".toList =
        cleanDirName (stripFinalExtension "my_notes.v2.txt".toList) ∧
      cleanName "my_notes.v2.txt".toList = "my notes.v2".toList :=
  ⟨by decide, by decide,
    (cleanName_is_cleanDirName_of_stem "my_notes.v2.txt".toList (by decide)).1, by decide⟩

/-- C13: for the root `My_Docs` holding the file `report-final.pdf`, the hidden
file `.DS_Store` and the subdirectory `.git` with the file `config`, the walk
yields the one group `My Docs` with the one file `report final`, and the
rendered text is exactly the heading and the one-item list of the
specification. -/
theorem end_to_end_My_Docs :
    walkDirectory (.ok (mkDir "My_Docs" [mkFile "report-final.pdf", mkFile ".DS_Store",
        mkDir ".git" [mkFile "config"]])) =
      ([⟨"My Docs".toList, ["report final".toList]⟩], none) ∧
    renderHTML (walkDirectory (.ok (mkDir "My_Docs" [mkFile "report-final.pdf",
        mkFile ".DS_Store", mkDir ".git" [mkFile "config"]]))).1 =
      "<h3>My Docs</h3>\n<ul>\n \t<li>report final</li>\n</ul>\n".toList := by
  decide

/-- C19: `cleanDirName` is idempotent on every string; `cleanName` is not: for
`a.b.c` it gives `a.b`, and applied again `a`. -/
theorem cleanDirName_idempotent_cleanName_not :
    (∀ name : Str, cleanDirName (cleanDirName name) = cleanDirName name) ∧
    cleanName "a.b.c".toList = "a.b".toList ∧
    cleanName (cleanName "a.b.c".toList) = "a".toList ∧
    cleanName (cleanName "a.b.c".toList) ≠ cleanName "a.b.c".toList := by
  refine ⟨fun name => ?_, by decide, by decide, by decide⟩
  rw [cleanDirName_eq (cleanDirName name), cleanDirName_eq name]
  have h1 : '_' ∉ TrimSpace (spaceOut name) :=
    fun h => (not_mem_spaceOut _).1 (TrimSpace_subset _ _ h)
  have h2 : '-' ∉ TrimSpace (spaceOut name) :=
    fun h => (not_mem_spaceOut _).2 (TrimSpace_subset _ _ h)
  rw [spaceOut_id _ h1 h2, TrimSpace_idem]

/-- C20: no name can inject markup: for every sequence of `G` groups holding `F`
files in total, whatever the names contain, the output of `renderHTML` has
exactly `4*G + 2*F` characters `<` and exactly `4*G + 2*F` characters `>`, those
of the `h3`, `ul` and `li` tags it writes itself. -/
theorem renderHTML_tag_count (entries : List dirEntry) :
    (renderHTML entries).count '<' =
      4 * entries.length + 2 * (entries.map (fun g => g.files.length)).sum ∧
    (renderHTML entries).count '>' =
      4 * entries.length + 2 * (entries.map (fun g => g.files.length)).sum ∧
    renderHTML [⟨"<b>".toList, ["</ul><script>".toList]⟩] =
      "<h3>&lt;b&gt;</h3>\n<ul>\n \t<li>&lt;/ul&gt;&lt;script&gt;</li>\n</ul>\n".toList := by
  refine ⟨?_, ?_, by decide⟩
  · exact count_renderHTML '<' (Or.inl rfl) entries
  · exact count_renderHTML '>' (Or.inr rfl) entries

/-! ## Walks that collect nothing -/

theorem visitsRoot_hidden (x : Node) (h : isHidden x.Name = true) : visitsRoot x = [] := by
  cases x <;> simp_all [visitsRoot, Node.Name]

theorem walkDirectory_hidden_root (root : Node) (h : isHidden root.Name = true) :
    walkDirectory (.ok root) = ([], none) := by
  have h2 : isHidden (ReadDir root).Name = true := by rw [ReadDir_Name]; exact h
  rw [walkDirectory_ok, firstError_hidden _ h2, visitsRoot_hidden _ h2]
  rfl

theorem reachableFilesIn_nil (es : List Node) :
    reachableFilesIn es = [] ↔ ∀ x ∈ es, reachableFiles x = [] := by
  induction es with
  | nil => simp [reachableFilesIn]
  | cons x xs ih => simp [reachableFilesIn, ih]

mutual
theorem reachableFiles_ReadDir :
    ∀ (x : Node), reachableFiles x = [] → reachableFiles (ReadDir x) = []
  | .file n, h => by simpa [ReadDir] using h
  | .dir n e es, h => by
    cases hn : isHidden n with
    | true => simp [ReadDir, reachableFiles, hn]
    | false =>
      have hes : reachableFilesIn es = [] := by simpa [reachableFiles, hn] using h
      have hall := reachableFilesIn_ReadDirs es hes
      simp only [ReadDir, reachableFiles, hn, Bool.false_eq_true, if_false]
      rw [reachableFilesIn_nil]
      intro y hy
      exact hall y ((List.perm_insertionSort byName _).mem_iff.mp hy)
theorem reachableFilesIn_ReadDirs :
    ∀ (es : List Node), reachableFilesIn es = [] → ∀ y ∈ ReadDirs es, reachableFiles y = []
  | [], _, y, hy => by simp [ReadDirs] at hy
  | x :: xs, h, y, hy => by
    have hx : reachableFiles x = [] ∧ reachableFilesIn xs = [] := by
      simpa [reachableFilesIn] using h
    simp only [ReadDirs, List.mem_cons] at hy
    rcases hy with hy | hy
    · rw [hy]
      exact reachableFiles_ReadDir x hx.1
    · exact reachableFilesIn_ReadDirs xs hx.2 y hy
end

mutual
theorem visits_all_dir (r : Str) (p : Path) :
    ∀ (x : Node), reachableFiles x = [] → ∀ v ∈ visits r p x, v.isDir = true
  | .file n, h, v, hv => by
    cases hn : isHidden n with
    | true => simp [visits, hn] at hv
    | false => simp [reachableFiles, hn] at h
  | .dir n e es, h, v, hv => by
    cases hn : isHidden n with
    | true => simp [visits, hn] at hv
    | false =>
      have hes : reachableFilesIn es = [] := by simpa [reachableFiles, hn] using h
      simp only [visits, hn, Bool.false_eq_true, if_false, List.mem_cons] at hv
      rcases hv with hv | hv
      · rw [hv]; rfl
      · exact visitsIn_all_dir r (p ++ [n]) es hes v hv
theorem visitsIn_all_dir (r : Str) (p : Path) :
    ∀ (es : List Node), reachableFilesIn es = [] → ∀ v ∈ visitsIn r p es, v.isDir = true
  | [], _, v, hv => by simp [visitsIn] at hv
  | x :: xs, h, v, hv => by
    have hx : reachableFiles x = [] ∧ reachableFilesIn xs = [] := by
      simpa [reachableFilesIn] using h
    simp only [visitsIn, List.mem_append] at hv
    rcases hv with hv | hv
    · exact visits_all_dir r p x hx.1 v hv
    · exact visitsIn_all_dir r p xs hx.2 v hv
end

theorem visitsRoot_all_dir (x : Node) (h : reachableFiles x = []) :
    ∀ v ∈ visitsRoot x, v.isDir = true := by
  intro v hv
  cases x with
  | file n =>
    cases hn : isHidden n with
    | true => simp [visitsRoot, hn] at hv
    | false => simp [reachableFiles, hn] at h
  | dir n e es =>
    cases hn : isHidden n with
    | true => simp [visitsRoot, hn] at hv
    | false =>
      have hes : reachableFilesIn es = [] := by simpa [reachableFiles, hn] using h
      simp only [visitsRoot, hn, Bool.false_eq_true, if_false, List.mem_cons] at hv
      rcases hv with hv | hv
      · rw [hv]; rfl
      · exact visitsIn_all_dir n [] es hes v hv

theorem track_dirFiles_nil (st : walkState) (k0 : Key) (h : ∀ k, st.dirFiles k = []) :
    ∀ k, (st.track k0).dirFiles k = [] := by
  intro k
  unfold walkState.track
  split
  · show (if k = k0 then [] else st.dirFiles k) = []
    split
    · rfl
    · exact h k
  · exact h k

theorem fold_dirs_dirFiles (vs : List Visit) :
    ∀ st : walkState, (∀ v ∈ vs, v.isDir = true) → (∀ k, st.dirFiles k = []) →
      ∀ k, (vs.foldl walkState.visit st).dirFiles k = [] := by
  induction vs with
  | nil => intro st _ h k; exact h k
  | cons v vs ih =>
    intro st hall h k
    cases v with
    | dir k0 =>
      rw [List.foldl_cons]
      exact ih (st.track k0) (fun w hw => hall w (List.mem_cons_of_mem _ hw))
        (track_dirFiles_nil st k0 h) k
    | file k0 n =>
      have := hall (.file k0 n) (List.mem_cons_self _ _)
      simp [Visit.isDir] at this

theorem walkDirectory_no_files (root : Node) (hfiles : reachableFiles root = [])
    (hok : firstError (ReadDir root) = none) : walkDirectory (.ok root) = ([], none) := by
  rw [walkDirectory_ok, hok]
  have hall := visitsRoot_all_dir _ (reachableFiles_ReadDir root hfiles)
  have hnil := fold_dirs_dirFiles _ walkState.init hall (fun _ => rfl)
  show (buildEntries _, none) = _
  rw [buildEntries_eq]
  congr 1
  rw [List.map_eq_nil_iff, List.filter_eq_nil_iff]
  intro k _
  simp [hnil k]

/-! ## The record of `dirSeen[parentPath]` -/

theorem walkFnLogged_err (r : Str) (s : walkState × List Bool) (p : Path)
    (d : Option DirEntry) (e : WalkErr) : walkFnLogged r s p d (some e) = (s, some e) := rfl

theorem walkFnLogged_hidden_dir (r : Str) (s : walkState × List Bool) (p : Path) (n : Str)
    (h : isHidden n = true) :
    walkFnLogged r s p (some ⟨n, true⟩) none = (s, some .SkipDir) := by
  simp [walkFnLogged, walkFn_hidden_dir r s.1 p n h, h]

theorem walkFnLogged_hidden_file (r : Str) (s : walkState × List Bool) (p : Path) (n : Str)
    (h : isHidden n = true) :
    walkFnLogged r s p (some ⟨n, false⟩) none = (s, none) := by
  simp [walkFnLogged, walkFn_hidden_file r s.1 p n h, h]

theorem walkFnLogged_dir (r : Str) (s : walkState × List Bool) (p : Path) (n : Str)
    (h : isHidden n = false) :
    walkFnLogged r s (p ++ [n]) (some ⟨n, true⟩) none =
      ((s.1.track (r :: (p ++ [n])), s.2), none) := by
  simp [walkFnLogged, walkFn_dir r s.1 p n h, h]

theorem parentKey_snoc (r : Str) (p : Path) (n : Str) (hp : p ≠ ["..".toList]) :
    parentKey r (p ++ [n]) = r :: p := by
  by_cases h0 : p = []
  · subst h0
    simp [parentKey, RelDir]
  · simp [parentKey, RelDir, Join_of_ne r _ hp, h0]

theorem walkFnLogged_file (r : Str) (s : walkState × List Bool) (p : Path) (n : Str)
    (h : isHidden n = false) (hp : p ≠ ["..".toList]) :
    walkFnLogged r s (p ++ [n]) (some ⟨n, false⟩) none =
      (((s.1.track (r :: p)).addFile (r :: p) (cleanName n),
        s.2 ++ [s.1.dirSeen (r :: p)]), none) := by
  simp [walkFnLogged, walkFn_file r s.1 p n h hp, h, parentKey_snoc r p n hp]

theorem track_seen_mono (st : walkState) (k0 k : Key) (h : st.dirSeen k = true) :
    (st.track k0).dirSeen k = true := by
  unfold walkState.track
  split
  · show (if k = k0 then true else st.dirSeen k) = true
    split
    · rfl
    · exact h
  · exact h

theorem track_seen_self (st : walkState) (k0 : Key) : (st.track k0).dirSeen k0 = true := by
  unfold walkState.track
  split
  · show (if k0 = k0 then true else st.dirSeen k0) = true
    simp
  · rename_i h
    simpa using h

mutual
theorem walkDir_seen (r : Str) (p : Path) (hp : p ≠ ["..".toList]) :
    ∀ (x : Node) (s : walkState × List Bool), s.1.dirSeen (r :: p) = true →
      (∀ b ∈ s.2, b = true) →
      (∀ k, s.1.dirSeen k = true →
        (walkDir (walkFnLogged r) (p ++ [x.Name]) x s).1.1.dirSeen k = true) ∧
      (∀ b ∈ (walkDir (walkFnLogged r) (p ++ [x.Name]) x s).1.2, b = true)
  | .file n, s, hs, hlog => by
    cases h : isHidden n with
    | true =>
      simp only [walkDir, Node.Name, walkFnLogged_hidden_file r s _ n h]
      exact ⟨fun k hk => hk, hlog⟩
    | false =>
      simp only [walkDir, Node.Name, walkFnLogged_file r s p n h hp]
      refine ⟨fun k hk => track_seen_mono _ _ _ hk, ?_⟩
      intro b hb
      rcases List.mem_append.mp hb with hb | hb
      · exact hlog b hb
      · rw [List.mem_singleton.mp hb]
        exact hs
  | .dir n e es, s, hs, hlog => by
    cases h : isHidden n with
    | true =>
      simp only [walkDir, Node.Name, walkFnLogged_hidden_dir r s _ n h]
      exact ⟨fun k hk => hk, hlog⟩
    | false =>
      have hp2 : p ++ [n] ≠ ["..".toList] := by
        intro e
        have := congrArg List.getLast? e
        simp at this
        exact dotdot_hidden n h this
      cases e with
      | some err =>
        simp only [walkDir, Node.Name, walkFnLogged_dir r s p n h, walkFnLogged_err]
        exact ⟨fun k hk => track_seen_mono _ _ _ hk, hlog⟩
      | none =>
        have ih := walkDirs_seen r (p ++ [n]) hp2 es (s.1.track (r :: (p ++ [n])), s.2)
          (track_seen_self _ _) hlog
        simp only [walkDir, Node.Name, walkFnLogged_dir r s p n h]
        exact ⟨fun k hk => ih.1 k (track_seen_mono _ _ _ hk), ih.2⟩
theorem walkDirs_seen (r : Str) (p : Path) (hp : p ≠ ["..".toList]) :
    ∀ (es : List Node) (s : walkState × List Bool), s.1.dirSeen (r :: p) = true →
      (∀ b ∈ s.2, b = true) →
      (∀ k, s.1.dirSeen k = true →
        (walkDirs (walkFnLogged r) p es s).1.1.dirSeen k = true) ∧
      (∀ b ∈ (walkDirs (walkFnLogged r) p es s).1.2, b = true)
  | [], s, _, hlog => by
    simp only [walkDirs]
    exact ⟨fun k hk => hk, hlog⟩
  | x :: xs, s, hs, hlog => by
    have ih1 := walkDir_seen r p hp x s hs hlog
    rw [walkDirs]
    rcases hw : walkDir (walkFnLogged r) (p ++ [x.Name]) x s with ⟨s1, e1⟩
    rw [hw] at ih1
    cases e1 with
    | some err => exact ih1
    | none =>
      have ih2 := walkDirs_seen r p hp xs s1 (ih1.1 _ hs) ih1.2
      exact ⟨fun k hk => ih2.1 k (ih1.1 k hk), ih2.2⟩
end

theorem seenAtFiles_eq (root : Node) :
    seenAtFiles (.ok root) =
      (walkDir (walkFnLogged root.Name) [] (ReadDir root) (walkState.init, [])).1.2 := rfl

theorem seenAtFiles_dir (root : Node) (hdir : root.IsDir = true) :
    ∀ b ∈ seenAtFiles (.ok root), b = true := by
  rw [seenAtFiles_eq]
  cases root with
  | file n => simp [Node.IsDir] at hdir
  | dir n e es =>
    rw [ReadDir]
    cases h : isHidden n with
    | true =>
      have hfn : walkFnLogged n (walkState.init, []) [] (some ⟨n, true⟩) none =
          ((walkState.init, []), some .SkipDir) := walkFnLogged_hidden_dir n _ [] n h
      simp [walkDir, Node.Name, hfn]
    | false =>
      have hfn : walkFnLogged n (walkState.init, []) [] (some ⟨n, true⟩) none =
          ((walkState.init.track [n], []), none) := by
        simp [walkFnLogged, walkFn, h, Rel]
      cases e with
      | some err => simp [walkDir, Node.Name, hfn, walkFnLogged_err]
      | none =>
        have ih := walkDirs_seen n [] (by decide) (List.insertionSort byName (ReadDirs es))
          (walkState.init.track [n], []) (track_seen_self walkState.init [n]) (by simp)
        simp only [walkDir, Node.Name, hfn]
        exact ih.2

theorem seenAtFiles_file (n : Str) (h : isHidden n = false) :
    seenAtFiles (.ok (.file n)) = [false] := by
  rw [seenAtFiles_eq]
  have hj : Join n [['.', '.']] = [['.']] := by simp [Join]
  simp [ReadDir, walkDir, Node.Name, walkFnLogged, walkFn, h, parentKey, RelDir, hj,
    walkState.init]

mutual
theorem walkDir_ghost {σ τ : Type} (fn : WalkDirFunc σ) (gn : WalkDirFunc (σ × τ))
    (H : ∀ s p d err, ((gn s p d err).1.1, (gn s p d err).2) = fn s.1 p d err) (path : Path) :
    ∀ (x : Node) (s : σ × τ),
      ((walkDir gn path x s).1.1, (walkDir gn path x s).2) = walkDir fn path x s.1
  | .file n, s => by
    simp only [walkDir]
    exact H s path _ none
  | .dir n e es, s => by
    have h1 := H s path (some ⟨n, true⟩) none
    rcases hg : gn s path (some ⟨n, true⟩) none with ⟨s1, e1⟩
    rw [hg] at h1
    simp only [walkDir, hg, ← h1]
    cases e1 with
    | some err => rfl
    | none =>
      cases e with
      | none => exact walkDirs_ghost fn gn H path es s1
      | some er =>
        have h2 := H s1 path (some ⟨n, true⟩) (some (.io er))
        rcases hg2 : gn s1 path (some ⟨n, true⟩) (some (.io er)) with ⟨s2, e2⟩
        rw [hg2] at h2
        simp only [hg2, ← h2]
        cases e2 with
        | some err => rfl
        | none => exact walkDirs_ghost fn gn H path es s2
theorem walkDirs_ghost {σ τ : Type} (fn : WalkDirFunc σ) (gn : WalkDirFunc (σ × τ))
    (H : ∀ s p d err, ((gn s p d err).1.1, (gn s p d err).2) = fn s.1 p d err) (path : Path) :
    ∀ (es : List Node) (s : σ × τ),
      ((walkDirs gn path es s).1.1, (walkDirs gn path es s).2) = walkDirs fn path es s.1
  | [], s => by simp [walkDirs]
  | x :: xs, s => by
    have h1 := walkDir_ghost fn gn H (path ++ [x.Name]) x s
    rcases hg : walkDir gn (path ++ [x.Name]) x s with ⟨s1, e1⟩
    rw [hg] at h1
    simp only [walkDirs, hg, ← h1]
    cases e1 with
    | some err => rfl
    | none => exact walkDirs_ghost fn gn H path xs s1
end

theorem WalkDir_logged (root : Lstat) :
    (WalkDir root (walkFnLogged (rootBase root)) (walkState.init, [])).1.1 =
        (WalkDir root (walkFn (rootBase root)) walkState.init).1 ∧
      (WalkDir root (walkFnLogged (rootBase root)) (walkState.init, [])).2 =
        (WalkDir root (walkFn (rootBase root)) walkState.init).2 := by
  have H : ∀ (s : walkState × List Bool) p d err,
      ((walkFnLogged (rootBase root) s p d err).1.1, (walkFnLogged (rootBase root) s p d err).2) =
        walkFn (rootBase root) s.1 p d err := fun _ _ _ _ => rfl
  cases root with
  | error e => exact ⟨rfl, rfl⟩
  | ok x =>
    have h := walkDir_ghost _ _ H [] (ReadDir x) (walkState.init, [])
    have h1 := congrArg Prod.fst h
    have h2 := congrArg Prod.snd h
    simp only at h1 h2
    simp only [WalkDir, h1, h2]
    exact ⟨trivial, trivial⟩

/-! ## Lemmas on the entry point -/

theorem main_usage (os : OS) (Args : List Str) (h : Args.length < 2) :
    main os Args = { code := 1, stdout := [], stderr := usageText, accesses := [] } := by
  simp [main, h]

theorem main_take (os : OS) (Args : List Str) (h : 2 ≤ Args.length) :
    main os Args = main os (Args.take 2) := by
  match Args, h with
  | a :: b :: rest, _ => simp [main]

theorem main_accesses (os : OS) (Args : List Str) (h : 2 ≤ Args.length) :
    Access.Stat (Args.getD 1 []) ∈ (main os Args).accesses := by
  have hlt : ¬ Args.length < 2 := by omega
  simp only [main, hlt, if_false]
  split
  · simp
  · split
    · simp
    · split
      · simp
      · split
        · simp
        · split <;> simp

theorem main_writes (os : OS) (Args : List Str) (absPath : AbsPath) (entries : List dirEntry)
    (h : 2 ≤ Args.length) (hstat : os.Stat (Args.getD 1 []) = .ok true)
    (habs : os.Abs (Args.getD 1 []) = .ok absPath)
    (hwalk : walkDirectory (os.Lstat absPath) = (entries, none)) :
    Access.WriteFile (outputPath absPath) (renderHTML entries) 0o644 ∈ (main os Args).accesses := by
  have hlt : ¬ Args.length < 2 := by omega
  simp only [main, hlt, if_false, hstat, habs, hwalk, Bool.not_true, Bool.false_eq_true]
  cases os.WriteFile (outputPath absPath) (renderHTML entries) <;> simp

theorem Dir_outputPath (absPath : AbsPath) : Dir (outputPath absPath) = Dir absPath := by
  simp [outputPath, Dir, JoinName]

theorem outputPath_not_inside (absPath : AbsPath) (h : absPath ≠ []) :
    inside absPath (outputPath absPath) = false := by
  by_cases hp : absPath <+: outputPath absPath
  · have hlen : absPath.length = (outputPath absPath).length := by
      have := List.length_pos.mpr h
      simp [outputPath, Dir, JoinName]
      omega
    have heq := hp.eq_of_length hlen
    simp [inside, ← heq]
  · have : absPath.isPrefixOf (outputPath absPath) = false := by
      rw [Bool.eq_false_iff]
      intro hc
      exact hp (List.isPrefixOf_iff_prefix.mp hc)
    simp [inside, this]

/-! ## Further claims on the tree walker and the entry point -/

/-- C14 as stated fails: the directory `Empty` has no files and no
subdirectories, hence no reachable non-hidden file, but it cannot be listed,
and `walkDirectory` does not succeed: it returns the error. -/
theorem unreadable_empty_directory_fails :
    reachableFiles (.dir "Empty".toList (some .EACCES) []) = [] ∧
      walkDirectory (.ok (.dir "Empty".toList (some .EACCES) [])) =
        ([], some (.io .EACCES)) := by
  decide

/-- C14, amended: for every directory tree in which no non-hidden file is
reachable through non-hidden directories and no read of a reached non-hidden
directory fails, `walkDirectory` succeeds with zero groups, `renderHTML` of the
result is the empty string, and that empty string is what `main` writes. -/
theorem walkDirectory_empty_output (root : Node) (hfiles : reachableFiles root = [])
    (hok : firstError (ReadDir root) = none) :
    walkDirectory (.ok root) = ([], none) ∧
    renderHTML (walkDirectory (.ok root)).1 = [] ∧
    (∀ (os : OS) (Args : List Str) (absPath : AbsPath), 2 ≤ Args.length →
      os.Stat (Args.getD 1 []) = .ok true → os.Abs (Args.getD 1 []) = .ok absPath →
      os.Lstat absPath = .ok root →
      Access.WriteFile (outputPath absPath) [] 0o644 ∈ (main os Args).accesses) := by
  have h := walkDirectory_no_files root hfiles hok
  refine ⟨h, by rw [h]; rfl, ?_⟩
  intro os Args absPath hlen hstat habs hl
  exact main_writes os Args absPath [] hlen hstat habs (by rw [hl]; exact h)

/-- Instance of `walkDirectory_empty_output` at the empty directory `Empty`. -/
theorem walkDirectory_empty_output_witness :
    reachableFiles (mkDir "Empty" []) = [] ∧ firstError (ReadDir (mkDir "Empty" [])) = none ∧
      walkDirectory (.ok (mkDir "Empty" [])) = ([], none) ∧
      renderHTML (walkDirectory (.ok (mkDir "Empty" []))).1 = [] :=
  ⟨by decide, by decide,
    (walkDirectory_empty_output (mkDir "Empty" []) (by decide) (by decide)).1,
    (walkDirectory_empty_output (mkDir "Empty" []) (by decide) (by decide)).2.1⟩

/-- C15 as stated fails: with two positional arguments, `docs` and `extra`,
`main` does not report a usage error: it examines and walks `docs`, writes the
output and exits with status 0. -/
theorem extra_argument_is_no_usage_error :
    (main sampleOS ["doclist".toList, "docs".toList, "extra".toList]).code = 0 ∧
    (main sampleOS ["doclist".toList, "docs".toList, "extra".toList]).stderr = [] ∧
    (main sampleOS ["doclist".toList, "docs".toList, "extra".toList]).stdout =
      "Done! Output saved to: /home/tmp.html\n".toList ∧
    (main sampleOS ["doclist".toList, "docs".toList, "extra".toList]).accesses =
      [.Stat "docs".toList, .Abs "docs".toList, .WalkDir ["home".toList, "docs".toList],
        .WriteFile ["home".toList, "tmp.html".toList]
          (renderHTML (walkDirectory (.ok docsTree)).1) 0o644] := by
  decide

/-- C15, amended: `main` requires at least one positional argument.  With none
it prints the usage text to standard error and exits with status 1 without any
call to the file system; with one or more it is not a usage error: it examines
the first argument and behaves exactly as if the further arguments were not
there. -/
theorem main_argument_count (os : OS) (Args : List Str) :
    (Args.length < 2 →
      main os Args = { code := 1, stdout := [], stderr := usageText, accesses := [] }) ∧
    (2 ≤ Args.length →
      main os Args = main os (Args.take 2) ∧
      Access.Stat (Args.getD 1 []) ∈ (main os Args).accesses) ∧
    main sampleOS ["doclist".toList] =
      { code := 1, stdout := [], stderr := usageText, accesses := [] } :=
  ⟨main_usage os Args, fun h => ⟨main_take os Args h, main_accesses os Args h⟩, by decide⟩

/-- C16 as stated fails: for the target `/`, whose `filepath.Dir` is `/` itself,
the output path is `/tmp.html`, a path inside the scanned directory. -/
theorem output_inside_root_directory :
    Dir ([] : AbsPath) = [] ∧ outputPath [] = ["tmp.html".toList] ∧
      (outputPath []).text = "/tmp.html".toList ∧ inside [] (outputPath []) = true := by
  decide

/-- C16, amended: for every resolved absolute target path other than the file
system root `/`, the output path `main` writes to is the file named `tmp.html`
directly inside the parent directory of the target, one level up, and not a
path inside the scanned directory; it differs from the target itself unless
the target is named `tmp.html`. -/
theorem outputPath_beside_target (absPath : AbsPath) (h : absPath ≠ []) :
    outputPath absPath = Dir absPath ++ ["tmp.html".toList] ∧
    Dir (outputPath absPath) = Dir absPath ∧
    inside absPath (outputPath absPath) = false ∧
    (absPath.getLast? ≠ some "tmp.html".toList → outputPath absPath ≠ absPath) ∧
    (∀ (os : OS) (Args : List Str) (entries : List dirEntry), 2 ≤ Args.length →
      os.Stat (Args.getD 1 []) = .ok true → os.Abs (Args.getD 1 []) = .ok absPath →
      walkDirectory (os.Lstat absPath) = (entries, none) →
      Access.WriteFile (outputPath absPath) (renderHTML entries) 0o644 ∈
        (main os Args).accesses) := by
  refine ⟨rfl, Dir_outputPath absPath, outputPath_not_inside absPath h, ?_, ?_⟩
  · intro hlast heq
    apply hlast
    rw [← heq]
    simp [outputPath, JoinName]
  · intro os Args entries hlen hstat habs hwalk
    exact main_writes os Args absPath entries hlen hstat habs hwalk

/-- Instance of `outputPath_beside_target` at the target `/home/docs`. -/
theorem outputPath_beside_target_witness :
    (["home".toList, "docs".toList] : AbsPath) ≠ [] ∧
      outputPath ["home".toList, "docs".toList] = ["home".toList, "tmp.html".toList] ∧
      inside ["home".toList, "docs".toList] (outputPath ["home".toList, "docs".toList]) =
        false :=
  ⟨by decide,
    (outputPath_beside_target ["home".toList, "docs".toList] (by decide)).1,
    (outputPath_beside_target ["home".toList, "docs".toList] (by decide)).2.2.1⟩

/-- C17: there is a root that `main` has validated as a directory (`os.Stat`
follows the symbolic link `my-link` to a directory) and hands to
`walkDirectory`, whose walk visits a non-hidden file while `dirSeen[parentPath]`
is false, so that the file branch itself registers the parent: `os.Lstat` in
`filepath.WalkDir` reports the link as a non-directory, the key registered is
`.` and the link name is listed under it.  When `os.Lstat` reports the root as
a directory, every file finds its parent registered.  The record is taken on
the walk itself: recording leaves state and result of the walk unchanged. -/
theorem file_branch_registers_parent :
    (∃ (os : OS) (target : Str) (absPath : AbsPath),
      os.Stat target = .ok true ∧ os.Abs target = .ok absPath ∧
      false ∈ seenAtFiles (os.Lstat absPath)) ∧
    seenAtFiles (linkOS.Lstat ["home".toList, "my-link".toList]) = [false] ∧
    walkDirectory (linkOS.Lstat ["home".toList, "my-link".toList]) =
      ([⟨".".toList, ["my link".toList]⟩], none) ∧
    main linkOS ["doclist".toList, "my-link".toList] =
      { code := 0, stderr := []
        stdout := "Done! Output saved to: /home/tmp.html\n".toList
        accesses := [.Stat "my-link".toList, .Abs "my-link".toList,
          .WalkDir ["home".toList, "my-link".toList],
          .WriteFile ["home".toList, "tmp.html".toList]
            "<h3>.</h3>\n<ul>\n \t<li>my link</li>\n</ul>\n".toList 0o644] } ∧
    (∀ n : Str, isHidden n = false → seenAtFiles (.ok (.file n)) = [false]) ∧
    (∀ root : Node, root.IsDir = true → ∀ b ∈ seenAtFiles (.ok root), b = true) ∧
    (∀ root : Lstat,
      (WalkDir root (walkFnLogged (rootBase root)) (walkState.init, [])).1.1 =
        (WalkDir root (walkFn (rootBase root)) walkState.init).1 ∧
      (WalkDir root (walkFnLogged (rootBase root)) (walkState.init, [])).2 =
        (WalkDir root (walkFn (rootBase root)) walkState.init).2) := by
  refine ⟨⟨linkOS, "my-link".toList, ["home".toList, "my-link".toList], rfl, rfl, ?_⟩,
    by decide, by decide, by decide, seenAtFiles_file, seenAtFiles_dir, WalkDir_logged⟩
  have h : seenAtFiles (linkOS.Lstat ["home".toList, "my-link".toList]) = [false] := by
    decide
  rw [h]
  exact List.mem_singleton.mpr rfl

/-- C18: if the base name of the root itself starts with `.`, `walkDirectory`
skips the whole tree: whatever the root contains, it returns no error and zero
groups, and the rendered output is the empty string. -/
theorem hidden_root_skips_tree (root : Node) (h : isHidden root.Name = true) :
    walkDirectory (.ok root) = ([], none) ∧ renderHTML (walkDirectory (.ok root)).1 = [] := by
  have h1 := walkDirectory_hidden_root root h
  exact ⟨h1, by rw [h1]; rfl⟩

/-- Instance of `hidden_root_skips_tree` at a root `.cache` with visible files
and a visible subdirectory. -/
theorem hidden_root_skips_tree_witness :
    isHidden (mkDir ".cache" [mkFile "a.txt", mkDir "sub" [mkFile "b.txt"]]).Name = true ∧
      walkDirectory (.ok (mkDir ".cache" [mkFile "a.txt", mkDir "sub" [mkFile "b.txt"]])) =
        ([], none) :=
  ⟨by decide,
    (hidden_root_skips_tree (mkDir ".cache" [mkFile "a.txt", mkDir "sub" [mkFile "b.txt"]])
      (by decide)).1⟩

end Doclist
